import Mathlib

/-!
# LayerAnimationSequence

A shallow embedding of `ui/gfx/compositor/layer_animation_sequence.cc` and a
verification of its cursor arithmetic.

Modelling conventions.

* `base::TimeDelta` is its internal value, a count of microseconds; `size_t`
  counters are natural numbers.
* The operations are embedded at two levels of arithmetic.  `Progress`, `Abort`
  and `AddElement` compute on mathematical integers (`Int`) and on exact
  rational fractions: they describe the runs in which no `int64` operation
  overflows and no quotient is rounded.  `Progress64` repeats `Progress` in the
  arithmetic of the machine: every `int64` result is reduced modulo `2 ^ 64`
  into the `int64` range (`wrapInt64`; signed overflow, undefined in C++, wraps
  around in the compiled code), and every `double` result is rounded to 53
  significant bits, ties to even (`roundDouble`).  The two levels agree on the
  cursor and on the calls made, up to the rounding of the fraction handed to the
  active element, whenever no `int64` operation on the cursor overflows
  (`Progress64_run`); the properties that depend on overflow or on rounding are
  stated on `Progress64`.
* `std::vector<linked_ptr<LayerAnimationElement>>` is a `List` of element
  descriptions.  An element is opaque to the sequence apart from its duration
  and its property set, so the effect of `element->Progress(t, delegate)` and of
  `element->Abort()` is recorded as an entry of a call log that names the index
  of the element in `elements_`.  The delegate is only threaded through to the
  elements and is not represented.
* `std::set<AnimatableProperty>` is a `Finset` of property identifiers; range
  insertion is union and `std::set_intersection` is intersection.
* Undefined behaviour (a zero divisor, an index outside the vector) and a loop
  that has not finished within the supplied number of iterations are reported as
  a `Fault`.
-/

namespace ui

/-- One element of a sequence: what `duration()` and `properties()` return. -/
structure LayerAnimationElement where
  duration : Int
  properties : Finset Nat
deriving DecidableEq

/-- A call made by the sequence on one of its elements, by index in `elements_`. -/
inductive Call where
  | progress (index : Nat) (t : ℚ)
  | abort (index : Nat)
deriving DecidableEq

/-- Reasons for which an operation has no defined result. -/
inductive Fault where
  | divByZero
  | outOfBounds
  | outOfFuel
deriving DecidableEq

/-- The data members of `LayerAnimationSequence`. -/
structure LayerAnimationSequence where
  elements_ : List LayerAnimationElement
  duration_ : Int
  properties_ : Finset Nat
  is_cyclic_ : Bool
  last_element_ : Nat
  last_start_ : Int
deriving DecidableEq

/-- Integer division of two internal values, as `int64 / int64` (truncating). -/
def divInt64 (a b : Int) : Except Fault Int :=
  if b = 0 then .error .divByZero else .ok (Int.tdiv a b)

/-- The operation `a % b` on `size_t`. -/
def modSize (a b : Nat) : Except Fault Nat :=
  if b = 0 then .error .divByZero else .ok (a % b)

/-- Division of two `double` values, exact; a zero divisor has no rational result. -/
def divDouble (a b : ℚ) : Except Fault ℚ :=
  if b = 0 then .error .divByZero else .ok (a / b)

/-- The access `elements_[i]`. -/
def elementAt (es : List LayerAnimationElement) (i : Nat) : Except Fault LayerAnimationElement :=
  match es[i]? with
  | some e => .ok e
  | none => .error .outOfBounds

/-- `TimeDelta::InMillisecondsF`: the internal microsecond count over 1000. -/
def InMillisecondsF (t : Int) : ℚ := (t : ℚ) / 1000

/-- The default constructor: not cyclic, cursor at zero, nothing accumulated. -/
def LayerAnimationSequence.new : LayerAnimationSequence :=
  { elements_ := [], duration_ := 0, properties_ := ∅, is_cyclic_ := false,
    last_element_ := 0, last_start_ := 0 }

/-- `LayerAnimationSequence::AddElement`. -/
def AddElement (s : LayerAnimationSequence) (element : LayerAnimationElement) :
    LayerAnimationSequence :=
  { s with
    duration_ := s.duration_ + element.duration
    properties_ := s.properties_ ∪ element.properties
    elements_ := s.elements_ ++ [element] }

/-- The constructor taking a first element. -/
def LayerAnimationSequence.newWith (element : LayerAnimationElement) : LayerAnimationSequence :=
  AddElement LayerAnimationSequence.new element

/-- The cyclic skip-ahead block at the head of `Progress`. -/
def skipAhead (s : LayerAnimationSequence) (elapsed : Int) : Except Fault LayerAnimationSequence :=
  if s.is_cyclic_ then do
    let delta := elapsed - s.last_start_
    let q ← divInt64 delta s.duration_
    let k := q - 1
    if k > 0 then
      pure { s with last_start_ := s.last_start_ + k * s.duration_ }
    else
      pure s
  else
    pure s

/-- The stepping loop of `Progress`.  `current_index` is `last_element_ % size` on
every evaluation of the loop test, as in the source, where it is assigned that
value before the loop and again at the end of the body.  The first argument
bounds the number of evaluations of the loop test. -/
def stepLoop : Nat → LayerAnimationSequence → Int → List Call →
    Except Fault (LayerAnimationSequence × List Call)
  | 0, _, _, _ => .error .outOfFuel
  | fuel + 1, s, elapsed, calls => do
    let current_index ← modSize s.last_element_ s.elements_.length
    if s.is_cyclic_ || decide (s.last_element_ < s.elements_.length) then do
      let el ← elementAt s.elements_ current_index
      if s.last_start_ + el.duration < elapsed then
        stepLoop fuel
          { s with last_start_ := s.last_start_ + el.duration
                   last_element_ := s.last_element_ + 1 }
          elapsed (calls ++ [Call.progress current_index 1])
      else
        pure (s, calls)
    else
      pure (s, calls)

/-- The update of the active element after the stepping loop. -/
def activeUpdate (s : LayerAnimationSequence) (elapsed : Int) (calls : List Call) :
    Except Fault (List Call) :=
  if s.is_cyclic_ || decide (s.last_element_ < s.elements_.length) then do
    let current_index ← modSize s.last_element_ s.elements_.length
    let el ← elementAt s.elements_ current_index
    if el.duration > 0 then do
      let t ← divDouble (InMillisecondsF (elapsed - s.last_start_)) (InMillisecondsF el.duration)
      pure (calls ++ [Call.progress current_index t])
    else
      pure (calls ++ [Call.progress current_index 1])
  else
    pure calls

/-- The reset at the end of `Progress`. -/
def resetAtEnd (s : LayerAnimationSequence) (elapsed : Int) : LayerAnimationSequence :=
  if !s.is_cyclic_ && decide (elapsed = s.duration_) then
    { s with last_element_ := 0, last_start_ := 0 }
  else
    s

/-- `LayerAnimationSequence::Progress`, returning the new state and the element
calls made, in order. -/
def Progress (fuel : Nat) (s : LayerAnimationSequence) (elapsed : Int) :
    Except Fault (LayerAnimationSequence × List Call) :=
  if s.elements_.length = 0 || decide (s.duration_ = 0) then
    pure (s, [])
  else do
    let s1 ← skipAhead s elapsed
    let (s2, calls) ← stepLoop fuel s1 elapsed []
    let calls2 ← activeUpdate s2 elapsed calls
    pure (resetAtEnd s2 elapsed, calls2)

/-- The loop of `Abort`. -/
def abortLoop (size : Nat) (current_index : Nat) (calls : List Call) : List Call :=
  if current_index < size then
    abortLoop size (current_index + 1) (calls ++ [Call.abort current_index])
  else
    calls
termination_by size - current_index

/-- `LayerAnimationSequence::Abort`. -/
def Abort (s : LayerAnimationSequence) : Except Fault (LayerAnimationSequence × List Call) := do
  let current_index ← modSize s.last_element_ s.elements_.length
  let calls := abortLoop s.elements_.length current_index []
  pure ({ s with last_element_ := 0, last_start_ := 0 }, calls)

/-- `LayerAnimationSequence::HasCommonProperty`. -/
def HasCommonProperty (s : LayerAnimationSequence) (other : Finset Nat) : Bool :=
  let intersection := s.properties_ ∩ other
  decide (intersection.card > 0)

/-! ## Quantities used to state the properties -/

/-- Duration of the element that index `j` addresses, taken modulo the size. -/
def durAt (es : List LayerAnimationElement) (j : Nat) : Int :=
  match es[j % es.length]? with
  | some e => e.duration
  | none => 0

/-- Sum of the durations of the `m` elements addressed by `c, c+1, ..., c+m-1`,
indices taken modulo the size. -/
def windowSum (es : List LayerAnimationElement) : Nat → Nat → Int
  | _, 0 => 0
  | c, m + 1 => durAt es c + windowSum es (c + 1) m

/-- The loop test of `Progress` after `i` iterations from cursor `(c, st)`. -/
def loopTest (es : List LayerAnimationElement) (cyc : Bool) (c : Nat) (st e : Int) (i : Nat) :
    Prop :=
  (cyc = true ∨ c + i < es.length) ∧ st + windowSum es c (i + 1) < e

instance (es : List LayerAnimationElement) (cyc : Bool) (c : Nat) (st e : Int) (i : Nat) :
    Decidable (loopTest es cyc c st e i) := by
  unfold loopTest; infer_instance

/-- Value of `last_start_` after the skip-ahead block of `Progress`. -/
def skipStart (s : LayerAnimationSequence) (e : Int) : Int :=
  if s.is_cyclic_ = true ∧ Int.tdiv (e - s.last_start_) s.duration_ - 1 > 0 then
    s.last_start_ + (Int.tdiv (e - s.last_start_) s.duration_ - 1) * s.duration_
  else
    s.last_start_

/-- The fraction handed to the active element: the exact ratio, or one for an
element of zero (or negative) duration. -/
def fractionAt (es : List LayerAnimationElement) (c : Nat) (st e : Int) : ℚ :=
  if durAt es c > 0 then ((e - st : Int) : ℚ) / ((durAt es c : Int) : ℚ) else 1

/-- Calls of the stepping loop: `m` terminal calls from cursor index `c`. -/
def passCalls (es : List LayerAnimationElement) (c m : Nat) : List Call :=
  (List.range m).map (fun i => Call.progress ((c + i) % es.length) 1)

/-- Call of the active-element update at cursor `(c, st)`, if any. -/
def activeCalls (es : List LayerAnimationElement) (cyc : Bool) (c : Nat) (st e : Int) :
    List Call :=
  if cyc = true ∨ c < es.length then [Call.progress (c % es.length) (fractionAt es c st e)]
  else []

/-- Sum of the durations of all elements: the value `duration_` accumulates. -/
def totalDuration (es : List LayerAnimationElement) : Int :=
  (es.map (fun el => el.duration)).sum

/-- Sum of the durations of the first `i` elements: the start time of element `i`
within one pass. -/
def startOf (es : List LayerAnimationElement) (i : Nat) : Int :=
  ((es.take i).map (fun el => el.duration)).sum

/-- Every element has a non-negative duration. -/
def NonNegDurations (es : List LayerAnimationElement) : Prop :=
  ∀ el, el ∈ es → 0 ≤ el.duration

/-- Union of the property sets of all elements: the value `properties_` accumulates. -/
def propertiesOf (es : List LayerAnimationElement) : Finset Nat :=
  es.foldl (fun acc el => acc ∪ el.properties) ∅

/-- States produced by either constructor followed by any interleaving of
`AddElement`, `Progress` and `Abort` calls that return. -/
inductive Reachable : LayerAnimationSequence → Prop
  | new : Reachable LayerAnimationSequence.new
  | newWith (el : LayerAnimationElement) : Reachable (LayerAnimationSequence.newWith el)
  | addElement (s : LayerAnimationSequence) (el : LayerAnimationElement) :
      Reachable s → Reachable (AddElement s el)
  | progress (s t : LayerAnimationSequence) (fuel : Nat) (elapsed : Int) (calls : List Call) :
      Reachable s → Progress fuel s elapsed = .ok (t, calls) → Reachable t
  | abort (s t : LayerAnimationSequence) (calls : List Call) :
      Reachable s → Abort s = .ok (t, calls) → Reachable t

/-- Two states agree on everything but the cursor. -/
def SameButCursor (s t : LayerAnimationSequence) : Prop :=
  t.elements_ = s.elements_ ∧ t.duration_ = s.duration_ ∧ t.properties_ = s.properties_ ∧
    t.is_cyclic_ = s.is_cyclic_

/-- The sequence of the abort scenario: two elements, the second one active. -/
def abortExample : LayerAnimationSequence :=
  { elements_ := [⟨100, {0}⟩, ⟨200, {1}⟩], duration_ := 300, properties_ := {0, 1},
    is_cyclic_ := false, last_element_ := 1, last_start_ := 100 }

/-- Number of loop iterations that certainly suffices for one `Progress` call. -/
def stepBound (s : LayerAnimationSequence) : Nat :=
  if s.is_cyclic_ then 2 * s.elements_.length - 1 else s.elements_.length - s.last_element_

/-- The two-element sequence of the scenarios: durations 100 and 200, not cyclic. -/
def twoElements : LayerAnimationSequence :=
  AddElement (LayerAnimationSequence.newWith ⟨100, {0}⟩) ⟨200, {1}⟩

/-- Successive `Progress` calls with the elapsed values of the list, in order; the call
logs are concatenated. -/
def ProgressAll (fuel : Nat) : LayerAnimationSequence → List Int →
    Except Fault (LayerAnimationSequence × List Call)
  | s, [] => pure (s, [])
  | s, e :: rest => do
    let (s1, calls1) ← Progress fuel s e
    let (s2, calls2) ← ProgressAll fuel s1 rest
    pure (s2, calls1 ++ calls2)

/-- The cursor `(c, st)` stands at the start of the `J`-th element of the sequence
played from `(0, 0)` (and repeated, when cyclic): `st` is the sum of the first `J`
durations, `c` addresses the same element as `J`, and `c` is `J` itself, at most the
size, when the sequence is not cyclic. -/
def CursorAt (es : List LayerAnimationElement) (cyc : Bool) (c : Nat) (st : Int) (J : Nat) :
    Prop :=
  st = windowSum es 0 J ∧ J % es.length = c % es.length ∧
    (cyc = false → J = c ∧ c ≤ es.length)

/-- Every element before the `J`-th ends strictly before `e`. -/
def Behind (es : List LayerAnimationElement) (e : Int) (J : Nat) : Prop :=
  ∀ j, j < J → windowSum es 0 (j + 1) < e

/-- The `J`-th element, if the sequence has not run out, ends at `e` or later. -/
def Caught (es : List LayerAnimationElement) (cyc : Bool) (e : Int) (J : Nat) : Prop :=
  (cyc = true ∨ J < es.length) → e ≤ windowSum es 0 (J + 1)

/-- Standing assumptions on a sequence for the run lemmas: it has elements, `duration_` is
their total and is positive, and a cyclic sequence has no negative duration. -/
def WellFormed (s : LayerAnimationSequence) : Prop :=
  s.elements_ ≠ [] ∧ s.duration_ = totalDuration s.elements_ ∧ 0 < s.duration_ ∧
    (s.is_cyclic_ = true → NonNegDurations s.elements_)

/-- Invariant of a run of `Progress` calls with non-decreasing elapsed values, stated for
the next elapsed value `e`: the cursor stands at some element `J` of the unrolled
sequence and every element before `J` ends strictly before `e`. -/
def RunInv (s : LayerAnimationSequence) (e : Int) : Prop :=
  ∃ J, CursorAt s.elements_ s.is_cyclic_ s.last_element_ s.last_start_ J ∧
    Behind s.elements_ e J

/-- The two-element sequence of the scenarios, made cyclic. -/
def twoElementsCyclic : LayerAnimationSequence :=
  { twoElements with is_cyclic_ := true }

/-- The two-element sequence after `Progress 50` and `Progress 150`. -/
def twoElementsAfter150 : LayerAnimationSequence :=
  { twoElements with last_element_ := 1, last_start_ := 100 }

/-- A sequence whose first element has zero duration: durations 0 and 100, not cyclic. -/
def zeroFirst : LayerAnimationSequence :=
  AddElement (LayerAnimationSequence.newWith ⟨0, {0}⟩) ⟨100, {1}⟩

/-- The procedure of `Progress` with the skip-ahead block removed: the guard, the
stepping loop element by element, the active-element update and the final reset. -/
def ProgressNoSkip (fuel : Nat) (s : LayerAnimationSequence) (elapsed : Int) :
    Except Fault (LayerAnimationSequence × List Call) :=
  if s.elements_.length = 0 || decide (s.duration_ = 0) then
    pure (s, [])
  else do
    let (s2, calls) ← stepLoop fuel s elapsed []
    let calls2 ← activeUpdate s2 elapsed calls
    pure (resetAtEnd s2 elapsed, calls2)

/-- Number of whole cycles the skip-ahead of `Progress` jumps over: `k` when
`k = (elapsed - last_start_) / duration_ - 1` is positive, zero otherwise. -/
def skippedCycles (s : LayerAnimationSequence) (e : Int) : Nat :=
  (Int.tdiv (e - s.last_start_) s.duration_ - 1).toNat

/-- The two-element sequence after a `Progress` call beyond its total duration: the
pass is complete, `last_element_` equals the number of elements. -/
def twoElementsCompleted : LayerAnimationSequence :=
  { twoElements with last_element_ := 2, last_start_ := 300 }

/-- A sequence whose last element has zero duration: durations 100 and 0, not cyclic. -/
def zeroLast : LayerAnimationSequence :=
  AddElement (LayerAnimationSequence.newWith ⟨100, {0}⟩) ⟨0, {1}⟩

/-! ## The operations in machine arithmetic -/

/-- Value an `int64` holds after an operation whose mathematical result is `x`: the
result reduced modulo `2 ^ 64` into `[-2 ^ 63, 2 ^ 63)` (two's complement wrap-around). -/
def wrapInt64 (x : Int) : Int := (x + 2 ^ 63) % 2 ^ 64 - 2 ^ 63

/-- Nearest integer to `y`, a tie going to the even neighbour. -/
def roundHalfEven (y : ℚ) : Int :=
  if y - (⌊y⌋ : ℚ) < 1 / 2 then ⌊y⌋
  else if 1 / 2 < y - (⌊y⌋ : ℚ) then ⌊y⌋ + 1
  else if ⌊y⌋ % 2 = 0 then ⌊y⌋ else ⌊y⌋ + 1

/-- Nearest `double` to `x`: 53 significant bits, round to nearest, ties to even.  The
exponent range is not bounded, which is immaterial for quotients of microsecond counts. -/
def roundDouble (x : ℚ) : ℚ :=
  if x = 0 then 0
  else (roundHalfEven (x / (2 : ℚ) ^ (Int.log 2 |x| - 52)) : ℚ) * (2 : ℚ) ^ (Int.log 2 |x| - 52)

/-- Integer division `int64 / int64`, truncating, the quotient held in an `int64`. -/
def divInt64Wrap (a b : Int) : Except Fault Int :=
  if b = 0 then .error .divByZero else .ok (wrapInt64 (Int.tdiv a b))

/-- `TimeDelta::InMillisecondsF` in `double` arithmetic: the microsecond count converted
to `double`, divided by `1000.0`. -/
def InMillisecondsF64 (t : Int) : ℚ := roundDouble (roundDouble (t : ℚ) / 1000)

/-- Division of two `double` values, rounded to `double`. -/
def divDouble64 (a b : ℚ) : Except Fault ℚ :=
  if b = 0 then .error .divByZero else .ok (roundDouble (a / b))

/-- The skip-ahead block of `Progress` in `int64` arithmetic. -/
def skipAhead64 (s : LayerAnimationSequence) (elapsed : Int) :
    Except Fault LayerAnimationSequence :=
  if s.is_cyclic_ then do
    let delta := wrapInt64 (elapsed - s.last_start_)
    let q ← divInt64Wrap delta s.duration_
    let k := wrapInt64 (q - 1)
    if k > 0 then
      pure { s with last_start_ := wrapInt64 (s.last_start_ + wrapInt64 (k * s.duration_)) }
    else
      pure s
  else
    pure s

/-- The stepping loop of `Progress` in `int64` arithmetic: the sum
`last_start_ + duration` wraps around, in the loop test and in the update alike. -/
def stepLoop64 : Nat → LayerAnimationSequence → Int → List Call →
    Except Fault (LayerAnimationSequence × List Call)
  | 0, _, _, _ => .error .outOfFuel
  | fuel + 1, s, elapsed, calls => do
    let current_index ← modSize s.last_element_ s.elements_.length
    if s.is_cyclic_ || decide (s.last_element_ < s.elements_.length) then do
      let el ← elementAt s.elements_ current_index
      if wrapInt64 (s.last_start_ + el.duration) < elapsed then
        stepLoop64 fuel
          { s with last_start_ := wrapInt64 (s.last_start_ + el.duration)
                   last_element_ := s.last_element_ + 1 }
          elapsed (calls ++ [Call.progress current_index 1])
      else
        pure (s, calls)
    else
      pure (s, calls)

/-- The update of the active element in `int64` and `double` arithmetic. -/
def activeUpdate64 (s : LayerAnimationSequence) (elapsed : Int) (calls : List Call) :
    Except Fault (List Call) :=
  if s.is_cyclic_ || decide (s.last_element_ < s.elements_.length) then do
    let current_index ← modSize s.last_element_ s.elements_.length
    let el ← elementAt s.elements_ current_index
    if el.duration > 0 then do
      let t ← divDouble64 (InMillisecondsF64 (wrapInt64 (elapsed - s.last_start_)))
        (InMillisecondsF64 el.duration)
      pure (calls ++ [Call.progress current_index t])
    else
      pure (calls ++ [Call.progress current_index 1])
  else
    pure calls

/-- `LayerAnimationSequence::Progress` in machine arithmetic: `int64` time values that
wrap around and `double` fractions that are rounded. -/
def Progress64 (fuel : Nat) (s : LayerAnimationSequence) (elapsed : Int) :
    Except Fault (LayerAnimationSequence × List Call) :=
  if s.elements_.length = 0 || decide (s.duration_ = 0) then
    pure (s, [])
  else do
    let s1 ← skipAhead64 s elapsed
    let (s2, calls) ← stepLoop64 fuel s1 elapsed []
    let calls2 ← activeUpdate64 s2 elapsed calls
    pure (resetAtEnd s2 elapsed, calls2)

/-- The fraction handed to the active element in `double` arithmetic. -/
def fractionAt64 (es : List LayerAnimationElement) (c : Nat) (st e : Int) : ℚ :=
  if durAt es c > 0 then
    roundDouble (InMillisecondsF64 (wrapInt64 (e - st)) / InMillisecondsF64 (durAt es c))
  else 1

/-- Call of the active-element update in `double` arithmetic, if any. -/
def activeCalls64 (es : List LayerAnimationElement) (cyc : Bool) (c : Nat) (st e : Int) :
    List Call :=
  if cyc = true ∨ c < es.length then [Call.progress (c % es.length) (fractionAt64 es c st e)]
  else []

/-- The integer `x` is the value of an `int64`. -/
def InInt64 (x : Int) : Prop := -2 ^ 63 ≤ x ∧ x < 2 ^ 63

/-- No `int64` operation of the skip-ahead block of `Progress` overflows: on a cyclic
sequence the difference `elapsed - last_start_`, the quotient by `duration_`, the count
`k`, and, when `k > 0`, the product `k * duration_` and the new `last_start_` are `int64`
values. -/
def SkipFits (s : LayerAnimationSequence) (e : Int) : Prop :=
  s.is_cyclic_ = true →
    InInt64 (e - s.last_start_) ∧
    InInt64 (Int.tdiv (e - s.last_start_) s.duration_) ∧
    InInt64 (Int.tdiv (e - s.last_start_) s.duration_ - 1) ∧
    (Int.tdiv (e - s.last_start_) s.duration_ - 1 > 0 →
      InInt64 ((Int.tdiv (e - s.last_start_) s.duration_ - 1) * s.duration_) ∧
      InInt64 (s.last_start_ + (Int.tdiv (e - s.last_start_) s.duration_ - 1) * s.duration_))

/-- No sum `last_start_ + duration` that the stepping loop evaluates overflows, for a loop
entered with cursor `(c, st)`: the loop evaluates the sum of its test number `i` when the
tests before it succeeded and the sequence has not run out. -/
def SumsFit (es : List LayerAnimationElement) (cyc : Bool) (c : Nat) (st e : Int) : Prop :=
  ∀ i, (∀ j, j < i → loopTest es cyc c st e j) → (cyc = true ∨ c + i < es.length) →
    InInt64 (st + windowSum es c (i + 1))

/-- No `int64` operation that `Progress` performs on the cursor overflows: none in the
skip-ahead block and none in the stepping loop.  (The difference taken for the fraction of
the active element does not touch the cursor and is not constrained here.) -/
def NoOverflow64 (s : LayerAnimationSequence) (e : Int) : Prop :=
  SkipFits s e ∧ SumsFit s.elements_ s.is_cyclic_ s.last_element_ (skipStart s e) e

/-- A margin that keeps every operation on the cursor within `int64`, for non-negative
durations: the cursor start, the cursor start plus the total duration and the elapsed
value plus the total duration are `int64` values, and so is the difference
`elapsed - last_start_` (strictly above the least `int64`). -/
def Fits64 (s : LayerAnimationSequence) (e : Int) : Prop :=
  -2 ^ 63 ≤ s.last_start_ ∧ s.last_start_ + s.duration_ < 2 ^ 63 ∧ e + s.duration_ < 2 ^ 63 ∧
    -2 ^ 63 < e - s.last_start_ ∧ e - s.last_start_ < 2 ^ 63

/-- A cyclic sequence of one element of `2 ^ 62 + 1` microseconds. -/
def oneHugeCyclic : LayerAnimationSequence :=
  { LayerAnimationSequence.newWith ⟨4611686018427387905, {0}⟩ with is_cyclic_ := true }

/-- The largest multiple of 300 microseconds that an `int64` holds, `2 ^ 63 - 8`. -/
def lastFullCycle : Int := 9223372036854775800

/-! ## Lemmas on the stepping loop -/

theorem elementAt_mod (es : List LayerAnimationElement) (hne : es ≠ []) (j : Nat) :
    ∃ el, elementAt es (j % es.length) = .ok el ∧ el.duration = durAt es j ∧
      es[j % es.length]? = some el := by
  have hlen : 0 < es.length := List.length_pos.mpr hne
  have hj : j % es.length < es.length := Nat.mod_lt _ hlen
  refine ⟨es[j % es.length], ?_, ?_, ?_⟩
  · simp [elementAt, List.getElem?_eq_getElem hj]
  · simp [durAt, List.getElem?_eq_getElem hj]
  · simp [List.getElem?_eq_getElem hj]

theorem modSize_ok (a b : Nat) (hb : b ≠ 0) : modSize a b = .ok (a % b) := by
  simp [modSize, hb]

theorem windowSum_succ (es : List LayerAnimationElement) (c m : Nat) :
    windowSum es c (m + 1) = windowSum es c m + durAt es (c + m) := by
  induction m generalizing c with
  | zero => simp [windowSum]
  | succ m ih =>
    rw [windowSum, ih (c + 1), windowSum]
    have : c + 1 + m = c + (m + 1) := by omega
    rw [this]; ring

theorem stepLoop_run (es : List LayerAnimationElement) (hne : es ≠ []) (e : Int) :
    ∀ (m : Nat) (s : LayerAnimationSequence) (calls : List Call) (fuel : Nat),
      s.elements_ = es → m < fuel →
      (∀ i, i < m → loopTest es s.is_cyclic_ s.last_element_ s.last_start_ e i) →
      ¬ loopTest es s.is_cyclic_ s.last_element_ s.last_start_ e m →
      stepLoop fuel s e calls =
        .ok ({ s with last_element_ := s.last_element_ + m
                      last_start_ := s.last_start_ + windowSum es s.last_element_ m },
             calls ++ (List.range m).map
               (fun i => Call.progress ((s.last_element_ + i) % es.length) 1)) := by
  have hlen : es.length ≠ 0 := by
    intro h; exact hne (List.length_eq_zero.mp h)
  intro m
  induction m with
  | zero =>
    intro s calls fuel hes hf _ hstop
    obtain ⟨els, dur, props, cyc, c, st⟩ := s
    simp only at hes hstop ⊢
    subst hes
    obtain ⟨fuel, rfl⟩ : ∃ f, fuel = f + 1 := ⟨fuel - 1, by omega⟩
    obtain ⟨el, hel, hdur, _⟩ := elementAt_mod els hne c
    simp only [loopTest, windowSum, Nat.add_zero, add_zero] at hstop
    rw [stepLoop, modSize_ok _ _ hlen]
    simp only [Except.bind, bind, hel, hdur, pure, Except.pure]
    by_cases h1 : (cyc || decide (c < els.length)) = true
    · simp only [h1, if_true]
      have h1p : cyc = true ∨ c < els.length := by simpa using h1
      have h2 : ¬ (st + durAt els c < e) := fun h => hstop ⟨h1p, h⟩
      simp [h2, windowSum]
    · simp [h1, windowSum]
  | succ m ih =>
    intro s calls fuel hes hf hrun hstop
    obtain ⟨els, dur, props, cyc, c, st⟩ := s
    simp only at hes hstop hrun ⊢
    subst hes
    obtain ⟨fuel, rfl⟩ : ∃ f, fuel = f + 1 := ⟨fuel - 1, by omega⟩
    obtain ⟨el, hel, hdur, _⟩ := elementAt_mod els hne c
    have h0 := hrun 0 (Nat.succ_pos m)
    simp only [loopTest, windowSum, Nat.add_zero, add_zero] at h0
    rw [stepLoop, modSize_ok _ _ hlen]
    simp only [Except.bind, bind, hel, hdur, pure, Except.pure]
    have h1 : (cyc || decide (c < els.length)) = true := by
      simpa using h0.1
    simp only [h1, if_true, h0.2]
    rw [ih _ _ fuel rfl (by omega)]
    · simp only [List.range_succ_eq_map, List.map_cons, List.map_map, Nat.add_zero,
        List.append_assoc, List.singleton_append, windowSum]
      congr 2
      · congr 1
        · omega
        · ring
      · congr 2
        apply List.map_congr_left
        intro i _
        simp only [Function.comp, Nat.succ_eq_add_one]
        congr 2; omega
    · intro i hi
      have := hrun (i + 1) (by omega)
      simp only [loopTest] at this ⊢
      refine ⟨?_, ?_⟩
      · rcases this.1 with h | h
        · exact Or.inl h
        · right; omega
      · have h2 := this.2
        rw [windowSum] at h2
        linarith
    · intro hc
      apply hstop
      simp only [loopTest] at hc ⊢
      refine ⟨?_, ?_⟩
      · rcases hc.1 with h | h
        · exact Or.inl h
        · right; omega
      · have h2 := hc.2
        have h3 : windowSum els c (m + 1 + 1) =
            durAt els c + windowSum els (c + 1) (m + 1) := rfl
        rw [h3]
        linarith

theorem skipAhead_ok (s : LayerAnimationSequence) (e : Int) (hD : s.duration_ ≠ 0) :
    skipAhead s e = .ok { s with last_start_ := skipStart s e } := by
  obtain ⟨els, dur, props, cyc, c, st⟩ := s
  simp only at hD
  cases cyc with
  | false => simp [skipAhead, skipStart, pure, Except.pure]
  | true =>
    simp only [skipAhead, skipStart, divInt64, hD, if_false, if_true, bind, Except.bind,
      pure, Except.pure, true_and]
    split <;> rfl

theorem divDouble_ms (a d : Int) (hd : 0 < d) :
    divDouble (InMillisecondsF a) (InMillisecondsF d) = .ok ((a : ℚ) / (d : ℚ)) := by
  have hd1 : (d : ℚ) ≠ 0 := by
    have : (0 : ℚ) < (d : ℚ) := by exact_mod_cast hd
    exact ne_of_gt this
  have h2 : InMillisecondsF d ≠ 0 := by
    unfold InMillisecondsF
    exact div_ne_zero hd1 (by norm_num)
  simp only [divDouble, h2, if_false]
  congr 1
  unfold InMillisecondsF
  field_simp

theorem activeUpdate_run (s : LayerAnimationSequence) (e : Int) (calls : List Call)
    (hne : s.elements_ ≠ []) :
    activeUpdate s e calls =
      .ok (calls ++ activeCalls s.elements_ s.is_cyclic_ s.last_element_ s.last_start_ e) := by
  obtain ⟨els, dur, props, cyc, c, st⟩ := s
  simp only at hne ⊢
  have hlen : els.length ≠ 0 := by
    intro h; exact hne (List.length_eq_zero.mp h)
  obtain ⟨el, hel, hdur, _⟩ := elementAt_mod els hne c
  unfold activeUpdate activeCalls
  by_cases h1 : (cyc || decide (c < els.length)) = true
  · have h1p : cyc = true ∨ c < els.length := by simpa using h1
    simp only [h1, if_true, h1p, modSize_ok _ _ hlen, bind, Except.bind, hel, pure, Except.pure,
      fractionAt, hdur]
    by_cases h2 : durAt els c > 0
    · simp only [h2, if_true]
      rw [divDouble_ms _ _ h2]
    · simp only [h2, if_false]
  · have h1p : ¬ (cyc = true ∨ c < els.length) := by simpa using h1
    simp [h1, h1p, pure, Except.pure]

theorem Progress_run (s : LayerAnimationSequence) (e : Int) (m fuel : Nat)
    (hne : s.elements_ ≠ []) (hD : s.duration_ ≠ 0) (hf : m < fuel)
    (hrun : ∀ i, i < m →
      loopTest s.elements_ s.is_cyclic_ s.last_element_ (skipStart s e) e i)
    (hstop : ¬ loopTest s.elements_ s.is_cyclic_ s.last_element_ (skipStart s e) e m) :
    Progress fuel s e =
      .ok (resetAtEnd
            { s with last_element_ := s.last_element_ + m
                     last_start_ := skipStart s e + windowSum s.elements_ s.last_element_ m } e,
           passCalls s.elements_ s.last_element_ m ++
             activeCalls s.elements_ s.is_cyclic_ (s.last_element_ + m)
               (skipStart s e + windowSum s.elements_ s.last_element_ m) e) := by
  have hlen : s.elements_.length ≠ 0 := by
    intro h; exact hne (List.length_eq_zero.mp h)
  unfold Progress
  simp only [hlen, hD, decide_False, Bool.or_self, Bool.false_eq_true, if_false]
  rw [skipAhead_ok s e hD]
  simp only [bind, Except.bind]
  rw [stepLoop_run s.elements_ hne e m { s with last_start_ := skipStart s e } [] fuel rfl hf
    hrun hstop]
  simp only [List.nil_append]
  rw [activeUpdate_run
    { s with last_element_ := s.last_element_ + m
             last_start_ := skipStart s e + windowSum s.elements_ s.last_element_ m } e _ hne]
  rfl

/-! ## Lemmas on sums of durations -/

theorem durAt_of_lt (es : List LayerAnimationElement) (i : Nat) (hi : i < es.length) :
    durAt es i = (es[i]).duration := by
  simp [durAt, Nat.mod_eq_of_lt hi, List.getElem?_eq_getElem hi]

theorem durAt_add_length (es : List LayerAnimationElement) (c : Nat) :
    durAt es (c + es.length) = durAt es c := by
  simp [durAt]

theorem durAt_nonneg (es : List LayerAnimationElement) (hnn : NonNegDurations es) (c : Nat) :
    0 ≤ durAt es c := by
  unfold durAt
  cases h : es[c % es.length]? with
  | none => simp
  | some el => exact hnn el (List.getElem?_mem h)

theorem startOf_succ (es : List LayerAnimationElement) (i : Nat) (hi : i < es.length) :
    startOf es (i + 1) = startOf es i + durAt es i := by
  rw [durAt_of_lt es i hi]
  unfold startOf
  rw [List.map_take, List.map_take, List.sum_take_succ _ i (by simpa using hi)]
  simp

theorem startOf_length (es : List LayerAnimationElement) :
    startOf es es.length = totalDuration es := by
  simp [startOf, totalDuration]

theorem windowSum_zero_start (es : List LayerAnimationElement) (m : Nat) (hm : m ≤ es.length) :
    windowSum es 0 m = startOf es m := by
  induction m with
  | zero => simp [windowSum, startOf]
  | succ m ih =>
    rw [windowSum_succ, ih (by omega), startOf_succ es m (by omega)]
    simp

theorem windowSum_add (es : List LayerAnimationElement) (c a b : Nat) :
    windowSum es c (a + b) = windowSum es c a + windowSum es (c + a) b := by
  induction b with
  | zero => simp [windowSum]
  | succ b ih =>
    rw [← Nat.add_assoc, windowSum_succ, ih, windowSum_succ]
    rw [Nat.add_assoc c a b]; ring

theorem windowSum_full (es : List LayerAnimationElement) (c : Nat) :
    windowSum es c es.length = totalDuration es := by
  induction c with
  | zero => rw [windowSum_zero_start es _ (le_refl _), startOf_length]
  | succ c ih =>
    have h1 : windowSum es c (es.length + 1) = durAt es c + windowSum es (c + 1) es.length := rfl
    have h2 := windowSum_succ es c es.length
    rw [durAt_add_length] at h2
    linarith

theorem windowSum_shift (es : List LayerAnimationElement) (c m : Nat) :
    windowSum es (c + es.length) m = windowSum es c m := by
  induction m generalizing c with
  | zero => simp [windowSum]
  | succ m ih =>
    simp only [windowSum]
    rw [durAt_add_length]
    have : c + es.length + 1 = (c + 1) + es.length := by omega
    rw [this, ih]

theorem windowSum_cycles (es : List LayerAnimationElement) (c t : Nat) :
    windowSum es c (t * es.length) = t * totalDuration es := by
  induction t generalizing c with
  | zero => simp [windowSum]
  | succ t ih =>
    have : (t + 1) * es.length = es.length + t * es.length := by ring
    rw [this, windowSum_add, windowSum_full, windowSum_shift, ih]
    push_cast; ring

theorem windowSum_nonneg (es : List LayerAnimationElement) (hnn : NonNegDurations es)
    (c m : Nat) : 0 ≤ windowSum es c m := by
  induction m generalizing c with
  | zero => simp [windowSum]
  | succ m ih =>
    simp only [windowSum]
    have := durAt_nonneg es hnn c
    have := ih (c + 1)
    linarith

theorem windowSum_mono (es : List LayerAnimationElement) (hnn : NonNegDurations es)
    (c a b : Nat) (hab : a ≤ b) : windowSum es c a ≤ windowSum es c b := by
  obtain ⟨d, rfl⟩ := Nat.exists_eq_add_of_le hab
  rw [windowSum_add]
  have := windowSum_nonneg es hnn (c + a) d
  linarith

theorem totalDuration_nonneg (es : List LayerAnimationElement) (hnn : NonNegDurations es) :
    0 ≤ totalDuration es := by
  rw [← windowSum_full es 0]
  exact windowSum_nonneg es hnn 0 _

/-- The loop stops: from any failing test one gets the first failing test. -/
theorem exists_stop (es : List LayerAnimationElement) (cyc : Bool) (c : Nat) (st e : Int)
    (b : Nat) (hb : ¬ loopTest es cyc c st e b) :
    ∃ m, m ≤ b ∧ (∀ i, i < m → loopTest es cyc c st e i) ∧ ¬ loopTest es cyc c st e m := by
  classical
  have hex : ∃ i, ¬ loopTest es cyc c st e i := ⟨b, hb⟩
  refine ⟨Nat.find hex, Nat.find_min' hex hb, ?_, Nat.find_spec hex⟩
  intro i hi
  by_contra hc
  exact Nat.find_min hex hi hc

/-- A non-cyclic loop stops before the cursor index exceeds the size. -/
theorem loopTest_noncyclic_end (es : List LayerAnimationElement) (c : Nat) (st e : Int) :
    ¬ loopTest es false c st e (es.length - c) := by
  simp only [loopTest, Bool.false_eq_true, false_or, not_and]
  intro h; omega

/-- A cyclic loop over non-negative durations of positive total stops. -/
theorem loopTest_cyclic_end (es : List LayerAnimationElement) (hnn : NonNegDurations es)
    (hpos : 0 < totalDuration es) (cyc : Bool) (c : Nat) (st e : Int) :
    ¬ loopTest es cyc c st e ((e - st).toNat * es.length) := by
  simp only [loopTest, not_and, not_lt]
  intro _
  have h1 := windowSum_mono es hnn c ((e - st).toNat * es.length)
    ((e - st).toNat * es.length + 1) (by omega)
  rw [windowSum_cycles] at h1
  have h2 : (e - st) ≤ ((e - st).toNat : Int) := Int.self_le_toNat _
  have h3 : ((e - st).toNat : Int) * 1 ≤ ((e - st).toNat : Int) * totalDuration es :=
    Int.mul_le_mul_of_nonneg_left (by omega) (by omega)
  linarith

/-! ## Lemmas on what the operations leave unchanged -/

theorem foldl_union_start (es : List LayerAnimationElement) (a : Finset Nat) :
    es.foldl (fun acc el => acc ∪ el.properties) a = a ∪ propertiesOf es := by
  induction es generalizing a with
  | nil => simp [propertiesOf]
  | cons x xs ih =>
    simp only [propertiesOf, List.foldl_cons]
    rw [ih (a ∪ x.properties), ih (∅ ∪ x.properties)]
    simp [Finset.union_assoc]

theorem propertiesOf_append (es : List LayerAnimationElement) (el : LayerAnimationElement) :
    propertiesOf (es ++ [el]) = propertiesOf es ∪ el.properties := by
  simp [propertiesOf, List.foldl_append]

theorem mem_propertiesOf (es : List LayerAnimationElement) (p : Nat) :
    p ∈ propertiesOf es ↔ ∃ el, el ∈ es ∧ p ∈ el.properties := by
  induction es using List.reverseRecOn with
  | nil => simp [propertiesOf]
  | append_singleton xs x ih =>
    rw [propertiesOf_append, Finset.mem_union, ih]
    constructor
    · rintro (⟨el, h1, h2⟩ | h)
      · exact ⟨el, by simp [h1], h2⟩
      · exact ⟨x, by simp, h⟩
    · rintro ⟨el, h1, h2⟩
      rcases List.mem_append.mp h1 with h | h
      · exact Or.inl ⟨el, h, h2⟩
      · right
        have : el = x := by simpa using h
        rw [← this]; exact h2

theorem totalDuration_append (es : List LayerAnimationElement) (el : LayerAnimationElement) :
    totalDuration (es ++ [el]) = totalDuration es + el.duration := by
  simp [totalDuration]

theorem stepLoop_frame : ∀ (fuel : Nat) (s : LayerAnimationSequence) (e : Int)
    (calls : List Call) (t : LayerAnimationSequence) (out : List Call),
    stepLoop fuel s e calls = .ok (t, out) → SameButCursor s t := by
  intro fuel
  induction fuel with
  | zero => intro s e calls t out h; simp [stepLoop] at h
  | succ fuel ih =>
    intro s e calls t out h
    rw [stepLoop] at h
    by_cases hlen : s.elements_.length = 0
    · simp [modSize, hlen, bind, Except.bind] at h
    · rw [modSize_ok _ _ hlen] at h
      simp only [bind, Except.bind, pure, Except.pure] at h
      by_cases h1 : (s.is_cyclic_ || decide (s.last_element_ < s.elements_.length)) = true
      · simp only [h1, if_true] at h
        cases hel : elementAt s.elements_ (s.last_element_ % s.elements_.length) with
        | error f => simp [hel] at h
        | ok el =>
          simp only [hel] at h
          by_cases h2 : s.last_start_ + el.duration < e
          · simp only [h2, if_true] at h
            have h3 := ih { s with last_start_ := s.last_start_ + el.duration
                                   last_element_ := s.last_element_ + 1 } _ _ _ _ h
            exact h3
          · simp only [h2, if_false, Except.ok.injEq, Prod.mk.injEq] at h
            rw [← h.1]; exact ⟨rfl, rfl, rfl, rfl⟩
      · simp only [h1, Bool.false_eq_true, if_false, Except.ok.injEq, Prod.mk.injEq] at h
        rw [← h.1]; exact ⟨rfl, rfl, rfl, rfl⟩

theorem Progress_frame (fuel : Nat) (s t : LayerAnimationSequence) (e : Int) (calls : List Call)
    (h : Progress fuel s e = .ok (t, calls)) : SameButCursor s t := by
  unfold Progress at h
  by_cases h0 : (s.elements_.length = 0 || decide (s.duration_ = 0)) = true
  · simp only [h0, if_true, pure, Except.pure, Except.ok.injEq, Prod.mk.injEq] at h
    rw [← h.1]; exact ⟨rfl, rfl, rfl, rfl⟩
  · simp only [h0, Bool.false_eq_true, if_false] at h
    have hD : s.duration_ ≠ 0 := by
      intro hd; apply h0; simp [hd]
    rw [skipAhead_ok s e hD] at h
    simp only [bind, Except.bind] at h
    cases hl : stepLoop fuel { s with last_start_ := skipStart s e } e [] with
    | error f => simp [hl] at h
    | ok r =>
      obtain ⟨s2, c2⟩ := r
      simp only [hl] at h
      have hf := stepLoop_frame _ _ _ _ _ _ hl
      cases ha : activeUpdate s2 e c2 with
      | error f => simp [ha] at h
      | ok c3 =>
        simp only [ha, pure, Except.pure, Except.ok.injEq, Prod.mk.injEq] at h
        rw [← h.1]
        unfold resetAtEnd
        split
        · exact hf
        · exact hf

theorem Abort_frame (s t : LayerAnimationSequence) (calls : List Call)
    (h : Abort s = .ok (t, calls)) :
    SameButCursor s t ∧ t.last_element_ = 0 ∧ t.last_start_ = 0 := by
  unfold Abort at h
  by_cases hlen : s.elements_.length = 0
  · simp [modSize, hlen, bind, Except.bind] at h
  · rw [modSize_ok _ _ hlen] at h
    simp only [bind, Except.bind, pure, Except.pure, Except.ok.injEq, Prod.mk.injEq] at h
    rw [← h.1]
    exact ⟨⟨rfl, rfl, rfl, rfl⟩, rfl, rfl⟩

theorem abortLoop_eq (size : Nat) : ∀ (k i : Nat) (calls : List Call), size - i = k →
    abortLoop size i calls = calls ++ (List.range' i (size - i)).map Call.abort := by
  intro k
  induction k with
  | zero =>
    intro i calls hk
    rw [abortLoop]
    have : ¬ i < size := by omega
    simp [this, hk]
  | succ k ih =>
    intro i calls hk
    rw [abortLoop]
    have h1 : i < size := by omega
    simp only [h1, if_true]
    rw [ih (i + 1) _ (by omega)]
    have h2 : size - i = (size - (i + 1)) + 1 := by omega
    rw [h2, List.range'_succ]
    simp

/-- The aggregates of a reachable state are those of its elements. -/
theorem Reachable_aggregates (s : LayerAnimationSequence) (h : Reachable s) :
    s.duration_ = totalDuration s.elements_ ∧ s.properties_ = propertiesOf s.elements_ ∧
      s.is_cyclic_ = false := by
  induction h with
  | new => simp [LayerAnimationSequence.new, totalDuration, propertiesOf]
  | newWith el =>
    simp [LayerAnimationSequence.newWith, LayerAnimationSequence.new, AddElement,
      totalDuration, propertiesOf]
  | addElement s el _ ih =>
    simp only [AddElement]
    rw [totalDuration_append, propertiesOf_append, ← ih.1, ← ih.2.1]
    exact ⟨rfl, rfl, ih.2.2⟩
  | progress s t fuel e calls _ hp ih =>
    obtain ⟨h1, h2, h3, h4⟩ := Progress_frame _ _ _ _ _ hp
    rw [h1, h2, h3, h4]; exact ih
  | abort s t calls _ ha ih =>
    obtain ⟨⟨h1, h2, h3, h4⟩, _⟩ := Abort_frame _ _ _ ha
    rw [h1, h2, h3, h4]; exact ih

/-! ## Abort, degenerate sequences, aggregates -/

/-- C5: on a non-empty sequence in any cursor state, cyclic or not, `Abort` returns;
its calls are `Abort` on the elements of index `cursor_index mod n` up to `n - 1`, once
each and in increasing order, it makes no `Progress` call, and it changes nothing but
the cursor, which becomes `(0, 0)`. -/
theorem C5_abort_rest_of_pass (s : LayerAnimationSequence) (hne : s.elements_ ≠ []) :
    ∃ calls, Abort s = .ok ({ s with last_element_ := 0, last_start_ := 0 }, calls) ∧
      calls = (List.range' (s.last_element_ % s.elements_.length)
        (s.elements_.length - s.last_element_ % s.elements_.length)).map Call.abort ∧
      (∀ i, calls.count (Call.abort i) =
        if s.last_element_ % s.elements_.length ≤ i ∧ i < s.elements_.length then 1 else 0) ∧
      (∀ i t, Call.progress i t ∉ calls) := by
  have hlen : s.elements_.length ≠ 0 := by
    intro h; exact hne (List.length_eq_zero.mp h)
  have hlt : s.last_element_ % s.elements_.length < s.elements_.length :=
    Nat.mod_lt _ (Nat.pos_of_ne_zero hlen)
  refine ⟨_, ?_, rfl, ?_, ?_⟩
  · unfold Abort
    rw [modSize_ok _ _ hlen]
    simp only [bind, Except.bind, pure, Except.pure]
    rw [abortLoop_eq _ _ _ _ rfl]
    simp
  · intro i
    have hinj : Function.Injective Call.abort := by
      intro a b h; cases h; rfl
    rw [List.count_map_of_injective _ _ hinj]
    split
    · next h =>
      apply List.count_eq_one_of_mem (List.nodup_range' _ _)
      rw [List.mem_range']
      exact ⟨i - s.last_element_ % s.elements_.length, by omega, by omega⟩
    · next h =>
      apply List.count_eq_zero_of_not_mem
      rw [List.mem_range']
      rintro ⟨j, hj, rfl⟩
      apply h
      constructor <;> omega
  · intro i t h
    simp at h

/-- Witness for C5: with two elements and element 1 active, only element 1 is aborted and
the cursor returns to `(0, 0)`. -/
theorem C5_abort_rest_of_pass_witness :
    Abort abortExample =
      .ok ({ abortExample with last_element_ := 0, last_start_ := 0 }, [Call.abort 1]) := by
  obtain ⟨calls, h1, h2, _⟩ := C5_abort_rest_of_pass abortExample (by simp [abortExample])
  rw [h1, h2]
  simp [abortExample, List.range']

/-- C6: on a sequence with no element, or whose total duration is zero, `Progress` returns
having made no element call and having left the whole state, cursor included, as it was. -/
theorem C6_progress_degenerate_noop (fuel : Nat) (s : LayerAnimationSequence) (elapsed : Int)
    (h : s.elements_ = [] ∨ s.duration_ = 0) :
    Progress fuel s elapsed = .ok (s, []) := by
  unfold Progress
  rcases h with h | h
  · simp [h, pure, Except.pure]
  · simp [h, pure, Except.pure]

/-- Witness for C6: the freshly constructed empty sequence. -/
theorem C6_progress_degenerate_noop_witness :
    Progress 0 LayerAnimationSequence.new 50 = .ok (LayerAnimationSequence.new, []) :=
  C6_progress_degenerate_noop 0 LayerAnimationSequence.new 50
    (Or.inl (by simp [LayerAnimationSequence.new]))

/-- C7: in every state produced by a constructor followed by `AddElement`, `Progress` and
`Abort` calls, `duration_` is the sum of the element durations and `properties_` is the
union of the element property sets; and `AddElement`, on any state, appends the element,
adds its duration, unions its properties and leaves the cursor alone. -/
theorem C7_aggregates_maintained :
    (∀ s, Reachable s →
      s.duration_ = (s.elements_.map (fun el => el.duration)).sum ∧
      ∀ p, p ∈ s.properties_ ↔ ∃ el, el ∈ s.elements_ ∧ p ∈ el.properties) ∧
    (∀ s el,
      (AddElement s el).elements_ = s.elements_ ++ [el] ∧
      (AddElement s el).duration_ = s.duration_ + el.duration ∧
      (AddElement s el).properties_ = s.properties_ ∪ el.properties ∧
      (AddElement s el).last_element_ = s.last_element_ ∧
      (AddElement s el).last_start_ = s.last_start_ ∧
      (AddElement s el).is_cyclic_ = s.is_cyclic_) := by
  constructor
  · intro s hs
    obtain ⟨h1, h2, _⟩ := Reachable_aggregates s hs
    refine ⟨h1, ?_⟩
    intro p
    rw [h2]
    exact mem_propertiesOf _ _
  · intro s el
    exact ⟨rfl, rfl, rfl, rfl, rfl, rfl⟩

/-- Witness for C7: the one-element constructor followed by one `AddElement`. -/
theorem C7_aggregates_maintained_witness :
    (AddElement (LayerAnimationSequence.newWith ⟨100, {0}⟩) ⟨200, {1}⟩).duration_ =
      (([⟨100, {0}⟩, ⟨200, {1}⟩] : List LayerAnimationElement).map (fun el => el.duration)).sum :=
  (C7_aggregates_maintained.1 _
    (Reachable.addElement _ _ (Reachable.newWith ⟨100, {0}⟩))).1

/-- C8: when `properties_` is the union of the element property sets (as it is in every
constructed sequence), `HasCommonProperty other` is true exactly when some identifier
belongs to `other` and to the property set of some element; on a sequence without
elements it is false.  The operation is a function of the state and returns no state. -/
theorem C8_has_common_property (s : LayerAnimationSequence) (other : Finset Nat)
    (hagg : s.properties_ = propertiesOf s.elements_) :
    (HasCommonProperty s other = true ↔
      ∃ p, p ∈ other ∧ ∃ el, el ∈ s.elements_ ∧ p ∈ el.properties) ∧
    (s.elements_ = [] → HasCommonProperty s other = false) := by
  have key : HasCommonProperty s other = true ↔
      ∃ p, p ∈ other ∧ ∃ el, el ∈ s.elements_ ∧ p ∈ el.properties := by
    unfold HasCommonProperty
    simp only [gt_iff_lt, decide_eq_true_eq, Finset.card_pos]
    rw [hagg]
    constructor
    · rintro ⟨p, hp⟩
      rw [Finset.mem_inter, mem_propertiesOf] at hp
      exact ⟨p, hp.2, hp.1⟩
    · rintro ⟨p, hp1, hp2⟩
      exact ⟨p, by rw [Finset.mem_inter, mem_propertiesOf]; exact ⟨hp2, hp1⟩⟩
  refine ⟨key, ?_⟩
  intro hnil
  rw [Bool.eq_false_iff]
  intro h
  obtain ⟨p, _, el, hel, _⟩ := key.mp h
  rw [hnil] at hel
  simp at hel

/-- Witness for C8: the empty sequence has no property in common with any set. -/
theorem C8_has_common_property_witness :
    HasCommonProperty LayerAnimationSequence.new {0, 1} = false :=
  (C8_has_common_property LayerAnimationSequence.new {0, 1}
    (by simp [LayerAnimationSequence.new, propertiesOf])).2
    (by simp [LayerAnimationSequence.new])

/-! ## Skip-ahead and termination -/

theorem skipStart_noncyclic (s : LayerAnimationSequence) (e : Int)
    (h : s.is_cyclic_ = false) : skipStart s e = s.last_start_ := by
  simp [skipStart, h]

theorem skipStart_of_neg (s : LayerAnimationSequence) (e : Int) (hD : 0 < s.duration_)
    (hd : e - s.last_start_ < 0) : skipStart s e = s.last_start_ := by
  have h1 : Int.tdiv (e - s.last_start_) s.duration_ ≤ 0 := by
    have h2 : 0 ≤ Int.tdiv (-(e - s.last_start_)) s.duration_ :=
      Int.tdiv_nonneg (by omega) (le_of_lt hD)
    rw [Int.neg_tdiv] at h2
    omega
  have h3 : ¬ (s.is_cyclic_ = true ∧ Int.tdiv (e - s.last_start_) s.duration_ - 1 > 0) := by
    intro h; omega
  simp only [skipStart, h3, if_false]

theorem skipStart_of_nonneg (s : LayerAnimationSequence) (e : Int)
    (hc : s.is_cyclic_ = true) (hD : 0 < s.duration_) (hd : 0 ≤ e - s.last_start_) :
    skipStart s e =
      s.last_start_ + max ((e - s.last_start_) / s.duration_ - 1) 0 * s.duration_ := by
  unfold skipStart
  rw [Int.tdiv_eq_ediv hd (le_of_lt hD)]
  by_cases h : (e - s.last_start_) / s.duration_ - 1 > 0
  · have h2 : s.is_cyclic_ = true ∧ (e - s.last_start_) / s.duration_ - 1 > 0 := ⟨hc, h⟩
    simp only [h2, and_self, if_true]
    rw [max_eq_left (le_of_lt h)]
  · have h2 : ¬ (s.is_cyclic_ = true ∧ (e - s.last_start_) / s.duration_ - 1 > 0) :=
      fun hh => h hh.2
    simp only [h2, if_false]
    rw [max_eq_right (by omega)]
    simp

/-- What the skip-ahead does to `last_start_`: it adds a whole number `k` of total
durations, none for a non-cyclic sequence, and leaves less than two total durations
(at least one when `k` is positive) up to the elapsed value. -/
theorem skipStart_spec (s : LayerAnimationSequence) (e : Int) (hD : 0 < s.duration_) :
    ∃ k : Nat, skipStart s e = s.last_start_ + (k : Int) * s.duration_ ∧
      (s.is_cyclic_ = false → k = 0) ∧
      (0 < k → s.duration_ ≤ e - skipStart s e) ∧
      (s.is_cyclic_ = true → e - skipStart s e < 2 * s.duration_) := by
  cases hc : s.is_cyclic_ with
  | false =>
    refine ⟨0, ?_, fun _ => rfl, fun h => absurd h (Nat.lt_irrefl 0), fun h => ?_⟩
    · rw [skipStart_noncyclic s e hc]; simp
    · cases h
  | true =>
    by_cases hd : 0 ≤ e - s.last_start_
    · have hform := skipStart_of_nonneg s e hc hD hd
      have hle := Int.ediv_mul_le (e - s.last_start_) (ne_of_gt hD)
      have hlt := Int.lt_ediv_add_one_mul_self (e - s.last_start_) hD
      have hq : 0 ≤ (e - s.last_start_) / s.duration_ := Int.ediv_nonneg hd (le_of_lt hD)
      refine ⟨(max ((e - s.last_start_) / s.duration_ - 1) 0).toNat, ?_, ?_, ?_, ?_⟩
      · rw [hform, Int.toNat_of_nonneg (le_max_right _ _)]
      · intro h; cases h
      · intro hk
        have hk2 : 0 < max ((e - s.last_start_) / s.duration_ - 1) 0 := by
          by_contra hcon
          have : (max ((e - s.last_start_) / s.duration_ - 1) 0).toNat = 0 := by
            apply Int.toNat_eq_zero.mpr; omega
          omega
        have hk3 : 0 < (e - s.last_start_) / s.duration_ - 1 := by
          rcases max_cases ((e - s.last_start_) / s.duration_ - 1) 0 with ⟨h1, _⟩ | ⟨h1, _⟩
          · rw [h1] at hk2; exact hk2
          · rw [h1] at hk2; exact absurd hk2 (lt_irrefl 0)
        rw [hform, max_eq_left (le_of_lt hk3)]
        nlinarith
      · intro _
        rw [hform]
        rcases max_cases ((e - s.last_start_) / s.duration_ - 1) 0 with ⟨h1, _⟩ | ⟨h1, h2⟩
        · rw [h1]; nlinarith
        · rw [h1]
          have : (e - s.last_start_) / s.duration_ + 1 ≤ 2 := by omega
          have := Int.mul_le_mul_of_nonneg_right this (le_of_lt hD)
          nlinarith
    · have hform := skipStart_of_neg s e hD (by omega)
      refine ⟨0, ?_, ?_, ?_, ?_⟩
      · rw [hform]; simp
      · intro h; cases h
      · intro h; exact absurd h (Nat.lt_irrefl 0)
      · intro _; rw [hform]; omega

/-- `Progress` returns on a non-empty sequence with positive total duration: the
loop stops after some `m` iterations, within the bound, and the result is the one
computed from `m`. -/
theorem Progress_total (s : LayerAnimationSequence) (e : Int) (hne : s.elements_ ≠ [])
    (hagg : s.duration_ = totalDuration s.elements_)
    (hpos : 0 < s.duration_) :
    ∃ m, m ≤ stepBound s ∧
      (∀ i, i < m → loopTest s.elements_ s.is_cyclic_ s.last_element_ (skipStart s e) e i) ∧
      ¬ loopTest s.elements_ s.is_cyclic_ s.last_element_ (skipStart s e) e m ∧
      ∀ fuel, m < fuel → Progress fuel s e =
        .ok (resetAtEnd
              { s with last_element_ := s.last_element_ + m
                       last_start_ := skipStart s e + windowSum s.elements_ s.last_element_ m } e,
             passCalls s.elements_ s.last_element_ m ++
               activeCalls s.elements_ s.is_cyclic_ (s.last_element_ + m)
                 (skipStart s e + windowSum s.elements_ s.last_element_ m) e) := by
  have hlen : 0 < s.elements_.length := List.length_pos.mpr hne
  have hb : ¬ loopTest s.elements_ s.is_cyclic_ s.last_element_ (skipStart s e) e
      (stepBound s) := by
    cases hc : s.is_cyclic_ with
    | false =>
      simp only [stepBound, hc, Bool.false_eq_true, if_false]
      exact loopTest_noncyclic_end _ _ _ _
    | true =>
      simp only [stepBound, hc, if_true, loopTest, true_or, true_and, not_lt]
      obtain ⟨k, _, _, _, h4⟩ := skipStart_spec s e hpos
      have h5 := h4 hc
      have h6 : 2 * s.elements_.length - 1 + 1 = 2 * s.elements_.length := by omega
      rw [h6, windowSum_cycles, ← hagg]
      push_cast
      linarith
  obtain ⟨m, hm, hrun, hstop⟩ := exists_stop _ _ _ _ _ _ hb
  refine ⟨m, hm, hrun, hstop, ?_⟩
  intro fuel hf
  exact Progress_run s e m fuel hne (ne_of_gt hpos) hf hrun hstop

theorem Progress_degenerate (fuel : Nat) (s : LayerAnimationSequence) (e : Int)
    (h : s.elements_ = [] ∨ s.duration_ = 0) : Progress fuel s e = .ok (s, []) := by
  unfold Progress
  rcases h with h | h
  · simp [h, pure, Except.pure]
  · simp [h, pure, Except.pure]

/-- A reachable state of non-negative durations whose total is zero has its cursor at
`(0, 0)`: nothing has ever moved it. -/
theorem Reachable_cursor_zero (s : LayerAnimationSequence) (h : Reachable s) :
    NonNegDurations s.elements_ → s.duration_ = 0 →
      s.last_element_ = 0 ∧ s.last_start_ = 0 := by
  induction h with
  | new => intro _ _; exact ⟨rfl, rfl⟩
  | newWith el => intro _ _; exact ⟨rfl, rfl⟩
  | addElement s el hs ih =>
    intro hnn hz
    have hnn1 : NonNegDurations s.elements_ := by
      intro x hx
      exact hnn x (by simp [AddElement, hx])
    have hel : 0 ≤ el.duration := hnn el (by simp [AddElement])
    have h1 := (Reachable_aggregates s hs).1
    have h2 := totalDuration_nonneg s.elements_ hnn1
    have hz1 : s.duration_ + el.duration = 0 := hz
    exact ih hnn1 (by omega)
  | progress s t fuel e calls _ hp ih =>
    intro hnn hz
    obtain ⟨h1, h2, _, _⟩ := Progress_frame _ _ _ _ _ hp
    rw [h1] at hnn
    rw [h2] at hz
    rw [Progress_degenerate fuel s e (Or.inr hz)] at hp
    simp only [Except.ok.injEq, Prod.mk.injEq] at hp
    rw [← hp.1]
    exact ih hnn hz
  | abort s t calls _ ha _ =>
    intro _ _
    exact (Abort_frame _ _ _ ha).2

/-! ## Fractions and the exact-boundary reset -/

/-- C10: on a sequence of non-negative durations whose `duration_` is their sum, a call
`Progress elapsed` made with `0 ≤ cursor_start ≤ elapsed` returns (given `2 n` loop
iterations) and every fraction it passes to an element lies in `[0, 1]`. -/
theorem C10_fractions_normalized (s : LayerAnimationSequence) (elapsed : Int)
    (hnn : NonNegDurations s.elements_) (hagg : s.duration_ = totalDuration s.elements_)
    (_h0 : 0 ≤ s.last_start_) (h1 : s.last_start_ ≤ elapsed) :
    ∃ t calls, (∀ fuel, 2 * s.elements_.length ≤ fuel →
        Progress fuel s elapsed = .ok (t, calls)) ∧
      ∀ i x, Call.progress i x ∈ calls → 0 ≤ x ∧ x ≤ 1 := by
  by_cases hdeg : s.elements_ = [] ∨ s.duration_ = 0
  · refine ⟨s, [], fun fuel _ => Progress_degenerate fuel s elapsed hdeg, ?_⟩
    intro i x hx
    simp at hx
  · have hne : s.elements_ ≠ [] := fun h => hdeg (Or.inl h)
    have hD : s.duration_ ≠ 0 := fun h => hdeg (Or.inr h)
    have hpos : 0 < s.duration_ := by
      have := totalDuration_nonneg s.elements_ hnn
      omega
    have hlen : 0 < s.elements_.length := List.length_pos.mpr hne
    obtain ⟨m, hm, hrun, hstop, hP⟩ := Progress_total s elapsed hne hagg hpos
    refine ⟨_, _, fun fuel hf => hP fuel ?_, ?_⟩
    · have : stepBound s < 2 * s.elements_.length := by
        unfold stepBound; split <;> omega
      omega
    · intro i x hx
      rcases List.mem_append.mp hx with hx | hx
      · simp only [passCalls, List.mem_map] at hx
        obtain ⟨j, _, hj⟩ := hx
        cases hj
        norm_num
      · unfold activeCalls at hx
        split at hx
        · next hact =>
          simp only [List.mem_singleton, Call.progress.injEq] at hx
          rw [hx.2]
          unfold fractionAt
          split
          · next hd =>
            have hst : skipStart s elapsed + windowSum s.elements_ s.last_element_ m ≤ elapsed := by
              cases m with
              | zero =>
                simp only [windowSum, add_zero]
                obtain ⟨k, hk1, _, hk3, _⟩ := skipStart_spec s elapsed hpos
                rcases Nat.eq_zero_or_pos k with hk | hk
                · rw [hk1, hk]; simp [h1]
                · have := hk3 hk; omega
              | succ m =>
                have := (hrun m (Nat.lt_succ_self m)).2
                omega
            have hend : elapsed ≤ skipStart s elapsed +
                windowSum s.elements_ s.last_element_ (m + 1) := by
              by_contra hcon
              exact hstop ⟨hact, by omega⟩
            rw [windowSum_succ] at hend
            have hdq : (0 : ℚ) < ((durAt s.elements_ (s.last_element_ + m) : Int) : ℚ) := by
              exact_mod_cast hd
            constructor
            · apply div_nonneg
              · exact_mod_cast (by omega : (0 : Int) ≤ elapsed -
                  (skipStart s elapsed + windowSum s.elements_ s.last_element_ m))
              · exact le_of_lt hdq
            · rw [div_le_one hdq]
              exact_mod_cast (by omega : elapsed -
                  (skipStart s elapsed + windowSum s.elements_ s.last_element_ m) ≤
                    durAt s.elements_ (s.last_element_ + m))
          · norm_num
        · simp at hx

/-- Witness for C10: the two-element scenario at 50 ms. -/
theorem C10_fractions_normalized_witness :
    ∃ t calls, (∀ fuel, 2 * twoElements.elements_.length ≤ fuel →
        Progress fuel twoElements 50 = .ok (t, calls)) ∧
      ∀ i x, Call.progress i x ∈ calls → 0 ≤ x ∧ x ≤ 1 :=
  C10_fractions_normalized twoElements 50
    (by
      intro el hel
      simp [twoElements, LayerAnimationSequence.newWith, LayerAnimationSequence.new,
        AddElement] at hel
      rcases hel with h | h <;> rw [h] <;> decide)
    (by
      simp [twoElements, LayerAnimationSequence.newWith, LayerAnimationSequence.new,
        AddElement, totalDuration])
    (by simp [twoElements, LayerAnimationSequence.newWith, LayerAnimationSequence.new,
        AddElement])
    (by simp [twoElements, LayerAnimationSequence.newWith, LayerAnimationSequence.new,
        AddElement])

/-- C4: in every state reached from construction by `AddElement`, `Progress` and `Abort`
calls, over elements of non-negative duration, `Progress` at an elapsed value equal to
the sum of the durations returns and leaves the cursor at `(0, 0)`. -/
theorem C4_exact_boundary_reset (s : LayerAnimationSequence) (hr : Reachable s)
    (hnn : NonNegDurations s.elements_) :
    ∃ t calls, (∀ fuel, s.elements_.length < fuel →
        Progress fuel s ((s.elements_.map (fun el => el.duration)).sum) = .ok (t, calls)) ∧
      t.last_element_ = 0 ∧ t.last_start_ = 0 := by
  obtain ⟨hagg, _, hcyc⟩ := Reachable_aggregates s hr
  have hsum : (s.elements_.map (fun el => el.duration)).sum = s.duration_ := hagg.symm
  rw [hsum]
  by_cases hdeg : s.elements_ = [] ∨ s.duration_ = 0
  · have hz : s.duration_ = 0 := by
      rcases hdeg with h | h
      · rw [hagg, h]; rfl
      · exact h
    exact ⟨s, [], fun fuel _ => Progress_degenerate fuel s _ hdeg,
      Reachable_cursor_zero s hr hnn hz⟩
  · have hne : s.elements_ ≠ [] := fun h => hdeg (Or.inl h)
    have hD : s.duration_ ≠ 0 := fun h => hdeg (Or.inr h)
    have hpos : 0 < s.duration_ := by
      have := totalDuration_nonneg s.elements_ hnn
      omega
    obtain ⟨m, hm, _, _, hP⟩ := Progress_total s s.duration_ hne hagg hpos
    refine ⟨_, _, fun fuel hf => hP fuel ?_, ?_, ?_⟩
    · have : stepBound s ≤ s.elements_.length := by
        unfold stepBound; rw [hcyc]; simp
      omega
    · simp [resetAtEnd, hcyc]
    · simp [resetAtEnd, hcyc]

set_option maxRecDepth 8000 in
theorem twoElementsAfter150_reachable : Reachable twoElementsAfter150 := by
  have h0 : Reachable twoElements :=
    Reachable.addElement _ _ (Reachable.newWith ⟨100, {0}⟩)
  have h50 : Progress 3 twoElements 50 = .ok (twoElements, [Call.progress 0 (1 / 2)]) := by
    simp [Progress, twoElements, LayerAnimationSequence.newWith, LayerAnimationSequence.new,
      AddElement, skipAhead, stepLoop, activeUpdate, resetAtEnd, modSize, elementAt, divDouble,
      InMillisecondsF, bind, Except.bind, pure, Except.pure]
    norm_num
  have h150 : Progress 3 twoElements 150 =
      .ok (twoElementsAfter150, [Call.progress 0 1, Call.progress 1 (1 / 4)]) := by
    simp [Progress, twoElementsAfter150, twoElements, LayerAnimationSequence.newWith,
      LayerAnimationSequence.new, AddElement, skipAhead, stepLoop, activeUpdate, resetAtEnd,
      modSize, elementAt, divDouble, InMillisecondsF, bind, Except.bind, pure, Except.pure]
    norm_num
  exact Reachable.progress _ _ 3 150 _ (Reachable.progress _ _ 3 50 _ h0 h50) h150

/-- Witness for C4: durations 100 and 200, after `Progress 50` and `Progress 150`, the call
at the total duration leaves the cursor at `(0, 0)`. -/
theorem C4_exact_boundary_reset_witness :
    ∃ t calls, (∀ fuel, twoElementsAfter150.elements_.length < fuel →
        Progress fuel twoElementsAfter150
          ((twoElementsAfter150.elements_.map (fun el => el.duration)).sum) = .ok (t, calls)) ∧
      t.last_element_ = 0 ∧ t.last_start_ = 0 :=
  C4_exact_boundary_reset twoElementsAfter150 twoElementsAfter150_reachable
    (by
      intro el hel
      simp [twoElementsAfter150, twoElements, LayerAnimationSequence.newWith,
        LayerAnimationSequence.new, AddElement] at hel
      rcases hel with h | h <;> rw [h] <;> decide)

/-! ## Tracking the cursor along the unrolled sequence -/

theorem durAt_congr (es : List LayerAnimationElement) (a b : Nat)
    (h : a % es.length = b % es.length) : durAt es a = durAt es b := by
  simp [durAt, h]

theorem windowSum_congr (es : List LayerAnimationElement) (m a b : Nat)
    (h : a % es.length = b % es.length) : windowSum es a m = windowSum es b m := by
  induction m generalizing a b with
  | zero => simp [windowSum]
  | succ m ih =>
    simp only [windowSum]
    rw [durAt_congr es a b h, ih (a + 1) (b + 1)]
    rw [Nat.add_mod a 1, Nat.add_mod b 1, h]

theorem windowSum_from_zero (es : List LayerAnimationElement) (J c m : Nat)
    (h : J % es.length = c % es.length) :
    windowSum es 0 J + windowSum es c m = windowSum es 0 (J + m) := by
  rw [windowSum_add es 0 J m, Nat.zero_add, windowSum_congr es m J c h]

/-- One `Progress` call from a cursor that stands at element `J` with everything before
it ended: the cursor moves to the element `J + k n + m` that is caught at `e`. -/
theorem Progress_tracks (s : LayerAnimationSequence) (e : Int) (J : Nat) (hwf : WellFormed s)
    (hcur : CursorAt s.elements_ s.is_cyclic_ s.last_element_ s.last_start_ J)
    (hbeh : Behind s.elements_ e J) :
    ∃ k m : Nat, (s.is_cyclic_ = false → k = 0) ∧ m ≤ stepBound s ∧
      Behind s.elements_ e (J + k * s.elements_.length + m) ∧
      Caught s.elements_ s.is_cyclic_ e (J + k * s.elements_.length + m) ∧
      CursorAt s.elements_ s.is_cyclic_ (s.last_element_ + m)
        (windowSum s.elements_ 0 (J + k * s.elements_.length + m))
        (J + k * s.elements_.length + m) ∧
      ∀ fuel, m < fuel → Progress fuel s e =
        .ok (resetAtEnd
              { s with last_element_ := s.last_element_ + m
                       last_start_ := windowSum s.elements_ 0
                         (J + k * s.elements_.length + m) } e,
             passCalls s.elements_ s.last_element_ m ++
               activeCalls s.elements_ s.is_cyclic_ (s.last_element_ + m)
                 (windowSum s.elements_ 0 (J + k * s.elements_.length + m)) e) := by
  obtain ⟨hne, hagg, hpos, hnn⟩ := hwf
  obtain ⟨hst, hmod, hnc⟩ := hcur
  have hlen : 0 < s.elements_.length := List.length_pos.mpr hne
  obtain ⟨k, hk1, hk2, hk3, _⟩ := skipStart_spec s e hpos
  obtain ⟨m, hm, hrun, hstop, hP⟩ := Progress_total s e hne hagg hpos
  have hmod1 : (J + k * s.elements_.length) % s.elements_.length =
      s.last_element_ % s.elements_.length := by
    rw [Nat.add_mul_mod_self_right, hmod]
  have hW1 : skipStart s e = windowSum s.elements_ 0 (J + k * s.elements_.length) := by
    rw [hk1, hst, windowSum_add, Nat.zero_add, windowSum_cycles, hagg]
  have hsum : ∀ i, skipStart s e + windowSum s.elements_ s.last_element_ i =
      windowSum s.elements_ 0 (J + k * s.elements_.length + i) := by
    intro i
    rw [hW1, windowSum_from_zero _ _ _ _ hmod1]
  have hbeh1 : Behind s.elements_ e (J + k * s.elements_.length) := by
    rcases Nat.eq_zero_or_pos k with hk | hk
    · rw [hk]; simpa using hbeh
    · have hcyc : s.is_cyclic_ = true := by
        cases hc : s.is_cyclic_ with
        | true => rfl
        | false => have := hk2 hc; omega
      intro j hj
      have h1 := windowSum_mono s.elements_ (hnn hcyc) 0 (j + 1)
        (J + k * s.elements_.length) (by omega)
      have h2 := hk3 hk
      rw [hW1] at h2
      omega
  refine ⟨k, m, hk2, hm, ?_, ?_, ?_, ?_⟩
  · intro j hj
    by_cases hj1 : j < J + k * s.elements_.length
    · exact hbeh1 j hj1
    · have h1 := (hrun (j - (J + k * s.elements_.length)) (by omega)).2
      rw [hsum] at h1
      have h2 : J + k * s.elements_.length + (j - (J + k * s.elements_.length) + 1) = j + 1 := by
        omega
      rw [h2] at h1
      exact h1
  · intro hact
    by_contra hcon
    apply hstop
    refine ⟨?_, ?_⟩
    · rcases hact with h | h
      · exact Or.inl h
      · cases hc : s.is_cyclic_ with
        | true => exact Or.inl rfl
        | false =>
          right
          have h1 := hk2 hc
          have h2 := (hnc hc).1
          rw [h1] at h
          omega
    · rw [hsum]
      have : J + k * s.elements_.length + (m + 1) = J + k * s.elements_.length + m + 1 := by
        omega
      rw [this]
      omega
  · refine ⟨rfl, ?_, ?_⟩
    · rw [Nat.add_mod, hmod1, ← Nat.add_mod]
    · intro hc
      have h1 := hk2 hc
      have h2 := hnc hc
      have h3 : stepBound s = s.elements_.length - s.last_element_ := by
        simp [stepBound, hc]
      rw [h1]
      constructor <;> omega
  · intro fuel hf
    rw [hP fuel hf, hsum]

/-! ## Runs of Progress calls -/

theorem RunInv_initial (s : LayerAnimationSequence) (e : Int) (hc : s.last_element_ = 0)
    (hst : s.last_start_ = 0) : RunInv s e := by
  refine ⟨0, ⟨?_, ?_, ?_⟩, ?_⟩
  · rw [hst]; rfl
  · rw [hc]
  · intro _; rw [hc]; exact ⟨rfl, Nat.zero_le _⟩
  · intro j hj; omega

theorem WellFormed_of_frame (s t : LayerAnimationSequence) (h : SameButCursor s t)
    (hwf : WellFormed s) : WellFormed t := by
  obtain ⟨h1, h2, _, h4⟩ := h
  unfold WellFormed
  rw [h1, h2, h4]
  exact hwf

theorem stepBound_lt (s : LayerAnimationSequence) (hne : s.elements_ ≠ []) :
    stepBound s < 2 * s.elements_.length := by
  have hlen : 0 < s.elements_.length := List.length_pos.mpr hne
  unfold stepBound
  split <;> omega

/-- The element caught at `e` is unique. -/
theorem caught_unique (es : List LayerAnimationElement) (cyc : Bool) (e : Int) (J K : Nat)
    (hJ : Behind es e J) (hJc : Caught es cyc e J) (hK : Behind es e K)
    (hKc : Caught es cyc e K) (hJn : cyc = false → J ≤ es.length)
    (hKn : cyc = false → K ≤ es.length) : J = K := by
  rcases Nat.lt_trichotomy J K with h | h | h
  · exfalso
    have h1 := hK J h
    have h2 : cyc = true ∨ J < es.length := by
      cases hc : cyc with
      | true => exact Or.inl rfl
      | false => right; have := hKn hc; omega
    have := hJc h2
    omega
  · exact h
  · exfalso
    have h1 := hJ K h
    have h2 : cyc = true ∨ K < es.length := by
      cases hc : cyc with
      | true => exact Or.inl rfl
      | false => right; have := hJn hc; omega
    have := hKc h2
    omega

theorem resetAtEnd_frame (s : LayerAnimationSequence) (e : Int) :
    SameButCursor s (resetAtEnd s e) := by
  unfold resetAtEnd
  split <;> exact ⟨rfl, rfl, rfl, rfl⟩

theorem RunInv_resetAtEnd (s : LayerAnimationSequence) (e e1 : Int) (h : RunInv s e1) :
    RunInv (resetAtEnd s e) e1 := by
  unfold resetAtEnd
  split
  · exact RunInv_initial _ _ rfl rfl
  · exact h

/-- One step of a run: `Progress` returns, changes only the cursor, and re-establishes
the run invariant for every later elapsed value. -/
theorem Progress_step_inv (s : LayerAnimationSequence) (e : Int) (hwf : WellFormed s)
    (hinv : RunInv s e) :
    ∃ t calls, (∀ fuel, 2 * s.elements_.length ≤ fuel → Progress fuel s e = .ok (t, calls)) ∧
      SameButCursor s t ∧ ∀ e1, e ≤ e1 → RunInv t e1 := by
  obtain ⟨J, hcur, hbeh⟩ := hinv
  obtain ⟨k, m, _, hm, hb, _, hc, hP⟩ := Progress_tracks s e J hwf hcur hbeh
  have hlt := stepBound_lt s hwf.1
  refine ⟨_, _, fun fuel hf => hP fuel (by omega), ?_, ?_⟩
  · exact resetAtEnd_frame _ _
  · intro e1 he1
    apply RunInv_resetAtEnd
    refine ⟨_, hc, ?_⟩
    intro j hj
    have := hb j hj
    show windowSum s.elements_ 0 (j + 1) < e1
    omega

theorem ProgressAll_cons_ok (fuel : Nat) (s s1 s2 : LayerAnimationSequence) (e : Int)
    (rest : List Int) (c1 c2 : List Call) (h1 : Progress fuel s e = .ok (s1, c1))
    (h2 : ProgressAll fuel s1 rest = .ok (s2, c2)) :
    ProgressAll fuel s (e :: rest) = .ok (s2, c1 ++ c2) := by
  simp [ProgressAll, bind, Except.bind, h1, h2, pure, Except.pure]

theorem ProgressAll_snoc_ok (fuel : Nat) (e : Int) : ∀ (l : List Int)
    (s s1 s2 : LayerAnimationSequence) (c1 c2 : List Call),
    ProgressAll fuel s l = .ok (s1, c1) → Progress fuel s1 e = .ok (s2, c2) →
    ProgressAll fuel s (l ++ [e]) = .ok (s2, c1 ++ c2) := by
  intro l
  induction l with
  | nil =>
    intro s s1 s2 c1 c2 h1 h2
    simp only [ProgressAll, pure, Except.pure, Except.ok.injEq, Prod.mk.injEq] at h1
    rw [← h1.1] at h2
    rw [← h1.2]
    simp [ProgressAll, bind, Except.bind, h2, pure, Except.pure]
  | cons x l ih =>
    intro s s1 s2 c1 c2 h1 h2
    simp only [ProgressAll, bind, Except.bind] at h1
    cases hx : Progress fuel s x with
    | error f => simp [hx] at h1
    | ok r =>
      obtain ⟨sa, ca⟩ := r
      simp only [hx] at h1
      cases hl : ProgressAll fuel sa l with
      | error f => simp [hl] at h1
      | ok r2 =>
        obtain ⟨sb, cb⟩ := r2
        simp only [hl, pure, Except.pure, Except.ok.injEq, Prod.mk.injEq] at h1
        rw [← h1.1] at h2
        have h3 := ih sa sb s2 cb c2 hl h2
        rw [List.cons_append, ProgressAll_cons_ok fuel s sa s2 x (l ++ [e]) ca (cb ++ c2) hx h3]
        rw [← h1.2, List.append_assoc]

/-- A run of `Progress` calls with non-decreasing elapsed values returns, changes only
the cursor, and keeps the run invariant for every elapsed value from the last one on. -/
theorem ProgressAll_tracks : ∀ (l : List Int) (s : LayerAnimationSequence), WellFormed s →
    l.Pairwise (fun a b => a ≤ b) → (∀ x, x ∈ l → RunInv s x) →
    ∃ t log, (∀ fuel, 2 * s.elements_.length ≤ fuel → ProgressAll fuel s l = .ok (t, log)) ∧
      SameButCursor s t ∧ ∀ e1, (∀ x, x ∈ l → x ≤ e1) → RunInv s e1 → RunInv t e1 := by
  intro l
  induction l with
  | nil =>
    intro s _ _ _
    exact ⟨s, [], fun _ _ => rfl, ⟨rfl, rfl, rfl, rfl⟩, fun _ _ h => h⟩
  | cons e rest ih =>
    intro s hwf hsorted hinv
    rw [List.pairwise_cons] at hsorted
    obtain ⟨t1, c1, hP1, hf1, hinv1⟩ :=
      Progress_step_inv s e hwf (hinv e (List.mem_cons_self _ _))
    obtain ⟨t, c2, hP2, hf2, hinv2⟩ := ih t1 (WellFormed_of_frame s t1 hf1 hwf) hsorted.2
      (fun x hx => hinv1 x (hsorted.1 x hx))
    refine ⟨t, c1 ++ c2, ?_, ?_, ?_⟩
    · intro fuel hf
      exact ProgressAll_cons_ok fuel s t1 t e rest c1 c2 (hP1 fuel hf)
        (hP2 fuel (by rw [hf1.1]; exact hf))
    · obtain ⟨a1, a2, a3, a4⟩ := hf1
      obtain ⟨b1, b2, b3, b4⟩ := hf2
      exact ⟨b1.trans a1, b2.trans a2, b3.trans a3, b4.trans a4⟩
    · intro e1 hle _
      exact hinv2 e1 (fun x hx => hle x (List.mem_cons_of_mem _ hx))
        (hinv1 e1 (hle e (List.mem_cons_self _ _)))

/-! ## The active element of a non-cyclic run -/

theorem getLast_append_activeCalls (es : List LayerAnimationElement) (cyc : Bool) (c : Nat)
    (st e : Int) (pre : List Call) (h : cyc = true ∨ c < es.length) :
    (pre ++ activeCalls es cyc c st e).getLast? =
      some (Call.progress (c % es.length) (fractionAt es c st e)) := by
  simp [activeCalls, h]

theorem twoElements_wf : WellFormed twoElements := by
  refine ⟨by simp [twoElements, LayerAnimationSequence.newWith, AddElement,
    LayerAnimationSequence.new], ?_, ?_, ?_⟩
  · simp [twoElements, LayerAnimationSequence.newWith, AddElement,
      LayerAnimationSequence.new, totalDuration]
  · simp [twoElements, LayerAnimationSequence.newWith, AddElement,
      LayerAnimationSequence.new]
  · intro h
    simp [twoElements, LayerAnimationSequence.newWith, AddElement,
      LayerAnimationSequence.new] at h

/-- C1: a non-cyclic sequence of non-negative durations with positive total `D`, driven
from the cursor `(0, 0)` by `Progress` calls with non-decreasing elapsed values
`pre ++ [em]`, all at least zero and at most `D`: every call returns, and the last call
made by `Progress em` goes to the least index `i` with `S (i + 1) ≥ em`, with fraction
`(em - S i) / d i` when `d i > 0` and `1` otherwise (`S` the prefix sums). -/
theorem C1_active_element_and_fraction (s : LayerAnimationSequence) (pre : List Int) (em : Int)
    (hcyc : s.is_cyclic_ = false) (hagg : s.duration_ = totalDuration s.elements_)
    (_hnn : NonNegDurations s.elements_) (hpos : 0 < s.duration_)
    (hc : s.last_element_ = 0) (hst : s.last_start_ = 0)
    (hsorted : (pre ++ [em]).Pairwise (fun a b => a ≤ b))
    (_h0 : ∀ x, x ∈ pre ++ [em] → 0 ≤ x) (hD : em ≤ s.duration_) :
    ∃ s1 log s2 calls i,
      (∀ fuel, 2 * s.elements_.length ≤ fuel →
        ProgressAll fuel s pre = .ok (s1, log) ∧ Progress fuel s1 em = .ok (s2, calls)) ∧
      i < s.elements_.length ∧ em ≤ startOf s.elements_ (i + 1) ∧
      (∀ j, j < i → startOf s.elements_ (j + 1) < em) ∧
      calls.getLast? = some (Call.progress i
        (if 0 < durAt s.elements_ i then
          ((em - startOf s.elements_ i : Int) : ℚ) / ((durAt s.elements_ i : Int) : ℚ)
        else 1)) := by
  have hne : s.elements_ ≠ [] := by
    intro h
    rw [hagg, h] at hpos
    simp [totalDuration] at hpos
  have hwf : WellFormed s := ⟨hne, hagg, hpos, fun h => by rw [hcyc] at h; cases h⟩
  rw [List.pairwise_append] at hsorted
  obtain ⟨hs1, _, hs3⟩ := hsorted
  obtain ⟨s1, log, hP1, hf1, hinv1⟩ := ProgressAll_tracks pre s hwf hs1
    (fun x _ => RunInv_initial s x hc hst)
  have hwf1 := WellFormed_of_frame s s1 hf1 hwf
  obtain ⟨J, hcur, hbeh⟩ := hinv1 em (fun x hx => hs3 x hx em (by simp))
    (RunInv_initial s em hc hst)
  obtain ⟨k, m, hk, hm, hb, hca, hc2, hP2⟩ := Progress_tracks s1 em J hwf1 hcur hbeh
  obtain ⟨e1, e2, _, e4⟩ := hf1
  have e5 : s1.is_cyclic_ = false := e4.trans hcyc
  rw [e1] at hb hca hc2 hP2
  rw [e5] at hca hc2 hP2
  have hk0 : k = 0 := hk e5
  subst hk0
  simp only [Nat.zero_mul, Nat.add_zero] at hb hca hc2 hP2
  obtain ⟨_, _, hc3⟩ := hc2
  obtain ⟨hJc, hJn⟩ := hc3 rfl
  have hlt : J + m < s.elements_.length := by
    by_contra hcon
    have hJeq : J + m = s.elements_.length := by omega
    have hlen : 0 < s.elements_.length := List.length_pos.mpr hne
    have h1 := hb (s.elements_.length - 1) (by omega)
    have h2 : s.elements_.length - 1 + 1 = s.elements_.length := by omega
    rw [h2, windowSum_full, ← hagg] at h1
    omega
  have hstart : ∀ i, i ≤ s.elements_.length →
      windowSum s.elements_ 0 i = startOf s.elements_ i :=
    fun i hi => windowSum_zero_start s.elements_ i hi
  refine ⟨s1, log,
    resetAtEnd
      { elements_ := s.elements_, duration_ := s1.duration_, properties_ := s1.properties_,
        is_cyclic_ := false, last_element_ := s1.last_element_ + m,
        last_start_ := windowSum s.elements_ 0 (J + m) } em,
    passCalls s.elements_ s1.last_element_ m ++
      activeCalls s.elements_ false (s1.last_element_ + m) (windowSum s.elements_ 0 (J + m)) em,
    J + m, ?_, hlt, ?_, ?_, ?_⟩
  · intro fuel hf
    refine ⟨hP1 fuel hf, hP2 fuel ?_⟩
    have := stepBound_lt s1 hwf1.1
    rw [e1] at this
    omega
  · rw [← hstart _ (by omega)]
    exact hca (Or.inr hlt)
  · intro j hj
    rw [← hstart _ (by omega)]
    exact hb j hj
  · rw [← hJc]
    rw [getLast_append_activeCalls _ _ _ _ _ _ (Or.inr hlt)]
    rw [Nat.mod_eq_of_lt hlt, hstart _ (by omega)]
    rfl

/-- Witness for C1: durations 100 and 200; `Progress 50` then `Progress 150`. -/
theorem C1_active_element_and_fraction_witness :
    ∃ s1 log s2 calls i,
      (∀ fuel, 2 * twoElements.elements_.length ≤ fuel →
        ProgressAll fuel twoElements [50] = .ok (s1, log) ∧
        Progress fuel s1 150 = .ok (s2, calls)) ∧
      i < twoElements.elements_.length ∧ 150 ≤ startOf twoElements.elements_ (i + 1) ∧
      (∀ j, j < i → startOf twoElements.elements_ (j + 1) < 150) ∧
      calls.getLast? = some (Call.progress i
        (if 0 < durAt twoElements.elements_ i then
          ((150 - startOf twoElements.elements_ i : Int) : ℚ) /
            ((durAt twoElements.elements_ i : Int) : ℚ)
        else 1)) :=
  C1_active_element_and_fraction twoElements [50] 150 rfl twoElements_wf.2.1
    (by
      intro el hel
      simp [twoElements, LayerAnimationSequence.newWith, LayerAnimationSequence.new,
        AddElement] at hel
      rcases hel with h | h <;> rw [h] <;> decide)
    twoElements_wf.2.2.1 rfl rfl (by simp) (by simp)
    (by simp [twoElements, LayerAnimationSequence.newWith, LayerAnimationSequence.new,
        AddElement])

/-! ## Path independence -/

theorem eq_of_frame_cursor (a b : LayerAnimationSequence) (h : SameButCursor a b)
    (hc : a.last_element_ = b.last_element_) (hs : a.last_start_ = b.last_start_) : a = b := by
  obtain ⟨h1, h2, h3, h4⟩ := h
  cases a; cases b
  simp only at h1 h2 h3 h4 hc hs
  subst h1 h2 h3 h4 hc hs
  rfl

theorem SameButCursor_trans (a b c : LayerAnimationSequence) (h1 : SameButCursor a b)
    (h2 : SameButCursor b c) : SameButCursor a c := by
  obtain ⟨a1, a2, a3, a4⟩ := h1
  obtain ⟨b1, b2, b3, b4⟩ := h2
  exact ⟨b1.trans a1, b2.trans a2, b3.trans a3, b4.trans a4⟩

theorem SameButCursor_symm (a b : LayerAnimationSequence) (h : SameButCursor a b) :
    SameButCursor b a := by
  obtain ⟨a1, a2, a3, a4⟩ := h
  exact ⟨a1.symm, a2.symm, a3.symm, a4.symm⟩

/-- Where one `Progress` call of a run ends: on the element `Jf` caught at `e`, or at
`(0, 0)` when a non-cyclic sequence is reset. -/
theorem Progress_final (s : LayerAnimationSequence) (e : Int) (hwf : WellFormed s)
    (hinv : RunInv s e) :
    ∃ t calls Jf,
      (∀ fuel, 2 * s.elements_.length ≤ fuel → Progress fuel s e = .ok (t, calls)) ∧
      SameButCursor s t ∧ Behind s.elements_ e Jf ∧ Caught s.elements_ s.is_cyclic_ e Jf ∧
      (s.is_cyclic_ = false → Jf ≤ s.elements_.length) ∧
      ((s.is_cyclic_ = false ∧ e = s.duration_) → t.last_element_ = 0 ∧ t.last_start_ = 0) ∧
      (¬ (s.is_cyclic_ = false ∧ e = s.duration_) →
        t.last_start_ = windowSum s.elements_ 0 Jf ∧
        t.last_element_ % s.elements_.length = Jf % s.elements_.length ∧
        (s.is_cyclic_ = false → t.last_element_ = Jf)) := by
  obtain ⟨J, hcur, hbeh⟩ := hinv
  obtain ⟨k, m, _, hm, hb, hca, hc, hP⟩ := Progress_tracks s e J hwf hcur hbeh
  have hlt := stepBound_lt s hwf.1
  obtain ⟨_, hc2, hc3⟩ := hc
  refine ⟨_, _, J + k * s.elements_.length + m, fun fuel hf => hP fuel (by omega),
    resetAtEnd_frame _ _, hb, hca, fun h => ?_, ?_, ?_⟩
  · have := hc3 h
    omega
  · rintro ⟨h1, h2⟩
    simp [resetAtEnd, h1, h2]
  · intro h
    have hr : (!s.is_cyclic_ && decide (e = s.duration_)) = false := by
      cases hcy : s.is_cyclic_ with
      | true => simp
      | false =>
        have : e ≠ s.duration_ := fun he => h ⟨hcy, he⟩
        simp [this]
    have hid : ∀ x : LayerAnimationSequence, x.is_cyclic_ = s.is_cyclic_ →
        x.duration_ = s.duration_ → resetAtEnd x e = x := by
      intro x hx1 hx2
      simp [resetAtEnd, hx1, hx2, hr]
    rw [hid { s with last_element_ := s.last_element_ + m
                     last_start_ := windowSum s.elements_ 0
                       (J + k * s.elements_.length + m) } rfl rfl]
    exact ⟨rfl, hc2.symm, fun hcy => (hc3 hcy).1.symm⟩

/-- C3, as amended: from the cursor `(0, 0)`, on a sequence with positive total duration
(and, when cyclic, no negative duration), a run of `Progress` calls with strictly
increasing elapsed values ending in `em` and the single call `Progress em` both return
and end with the same `last_start_` and the same active index `last_element_ mod n`;
when the sequence is not cyclic the two final states are equal, `last_element_`
included. -/
theorem C3_path_independence (s : LayerAnimationSequence) (pre : List Int) (em : Int)
    (hagg : s.duration_ = totalDuration s.elements_) (hpos : 0 < s.duration_)
    (hnn : s.is_cyclic_ = true → NonNegDurations s.elements_)
    (hc : s.last_element_ = 0) (hst : s.last_start_ = 0)
    (hinc : (pre ++ [em]).Pairwise (fun a b => a < b))
    (_h0 : ∀ x, x ∈ pre ++ [em] → 0 ≤ x) :
    ∃ t1 log1 t2 log2,
      (∀ fuel, 2 * s.elements_.length ≤ fuel →
        ProgressAll fuel s (pre ++ [em]) = .ok (t1, log1) ∧
        Progress fuel s em = .ok (t2, log2)) ∧
      t1.last_start_ = t2.last_start_ ∧
      t1.last_element_ % s.elements_.length = t2.last_element_ % s.elements_.length ∧
      (s.is_cyclic_ = false → t1 = t2) := by
  have hne : s.elements_ ≠ [] := by
    intro h
    rw [hagg, h] at hpos
    simp [totalDuration] at hpos
  have hwf : WellFormed s := ⟨hne, hagg, hpos, hnn⟩
  have hsorted : (pre ++ [em]).Pairwise (fun a b => a ≤ b) :=
    hinc.imp (fun h => le_of_lt h)
  rw [List.pairwise_append] at hsorted
  obtain ⟨hs1, _, hs3⟩ := hsorted
  obtain ⟨s1, log, hP1, hf1, hinv1⟩ := ProgressAll_tracks pre s hwf hs1
    (fun x _ => RunInv_initial s x hc hst)
  have hwf1 := WellFormed_of_frame s s1 hf1 hwf
  have hinvA : RunInv s1 em := hinv1 em (fun x hx => hs3 x hx em (by simp))
    (RunInv_initial s em hc hst)
  obtain ⟨t1, c1, Ja, hPa, hfa, hba, hca, hna, hra, hka⟩ := Progress_final s1 em hwf1 hinvA
  obtain ⟨t2, c2, Jb, hPb, hfb, hbb, hcb, hnb, hrb, hkb⟩ :=
    Progress_final s em hwf (RunInv_initial s em hc hst)
  obtain ⟨e1, e2, _, e4⟩ := hf1
  simp only [e1, e2, e4] at hra hka hba hPa hca hna
  have hJ : Ja = Jb := caught_unique s.elements_ s.is_cyclic_ em Ja Jb hba hca hbb hcb hna hnb
  have hcursor : t1.last_start_ = t2.last_start_ ∧
      t1.last_element_ % s.elements_.length = t2.last_element_ % s.elements_.length ∧
      (s.is_cyclic_ = false → t1.last_element_ = t2.last_element_) := by
    by_cases hr : s.is_cyclic_ = false ∧ em = s.duration_
    · obtain ⟨a1, a2⟩ := hra hr
      obtain ⟨b1, b2⟩ := hrb hr
      rw [a1, a2, b1, b2]
      exact ⟨rfl, rfl, fun _ => rfl⟩
    · obtain ⟨a1, a2, a3⟩ := hka hr
      obtain ⟨b1, b2, b3⟩ := hkb hr
      rw [a1, a2, b1, b2, hJ]
      exact ⟨rfl, rfl, fun h => by rw [a3 h, b3 h, hJ]⟩
  refine ⟨t1, log ++ c1, t2, c2, ?_, hcursor.1, hcursor.2.1, ?_⟩
  · intro fuel hf
    exact ⟨ProgressAll_snoc_ok fuel em pre s s1 t1 log c1 (hP1 fuel hf) (hPa fuel hf),
      hPb fuel hf⟩
  · intro hcy
    apply eq_of_frame_cursor
    · exact SameButCursor_trans _ _ _
        (SameButCursor_symm _ _ (SameButCursor_trans _ _ _ ⟨e1, e2, by assumption, e4⟩ hfa)) hfb
    · exact hcursor.2.2 hcy
    · exact hcursor.1

theorem twoElementsCyclic_wf : WellFormed twoElementsCyclic := by
  refine ⟨by simp [twoElementsCyclic, twoElements, LayerAnimationSequence.newWith, AddElement,
    LayerAnimationSequence.new], ?_, ?_, ?_⟩
  · simp [twoElementsCyclic, twoElements, LayerAnimationSequence.newWith, AddElement,
      LayerAnimationSequence.new, totalDuration]
  · simp [twoElementsCyclic, twoElements, LayerAnimationSequence.newWith, AddElement,
      LayerAnimationSequence.new]
  · intro _ el hel
    simp [twoElementsCyclic, twoElements, LayerAnimationSequence.newWith,
      LayerAnimationSequence.new, AddElement] at hel
    rcases hel with h | h <;> rw [h] <;> decide

/-- Witness for C3 as amended: the cyclic two-element sequence, `Progress 350` then
`Progress 750` against `Progress 750` alone. -/
theorem C3_path_independence_witness :
    ∃ t1 log1 t2 log2,
      (∀ fuel, 2 * twoElementsCyclic.elements_.length ≤ fuel →
        ProgressAll fuel twoElementsCyclic ([350] ++ [750]) = .ok (t1, log1) ∧
        Progress fuel twoElementsCyclic 750 = .ok (t2, log2)) ∧
      t1.last_start_ = t2.last_start_ ∧
      t1.last_element_ % twoElementsCyclic.elements_.length =
        t2.last_element_ % twoElementsCyclic.elements_.length ∧
      (twoElementsCyclic.is_cyclic_ = false → t1 = t2) :=
  C3_path_independence twoElementsCyclic [350] 750 twoElementsCyclic_wf.2.1
    twoElementsCyclic_wf.2.2.1 twoElementsCyclic_wf.2.2.2 rfl rfl (by simp) (by simp)

set_option maxRecDepth 8000 in
/-- Counterexample to C3 as stated: on the cyclic two-element sequence (durations 100 and
200) the run `Progress 350`, `Progress 750` from `(0, 0)` ends with `last_element_ = 5`,
the single call `Progress 750` with `last_element_ = 3`; both end with
`last_start_ = 700`. -/
theorem C3_counterexample :
    (ProgressAll 4 twoElementsCyclic [350, 750]).map
        (fun r => (r.1.last_element_, r.1.last_start_)) = .ok (5, 700) ∧
    (Progress 4 twoElementsCyclic 750).map
        (fun r => (r.1.last_element_, r.1.last_start_)) = .ok (3, 700) := by
  have d1 : Int.tdiv 350 300 = 1 := by decide
  have d2 : Int.tdiv 450 300 = 1 := by decide
  have d3 : Int.tdiv 750 300 = 2 := by decide
  constructor
  · simp [d1, d2, ProgressAll, Progress, twoElementsCyclic, twoElements,
      LayerAnimationSequence.newWith, LayerAnimationSequence.new, AddElement, skipAhead,
      stepLoop, activeUpdate, resetAtEnd, modSize, elementAt, divDouble, divInt64,
      InMillisecondsF, bind, Except.bind, pure, Except.pure, Except.map]
  · simp [d3, Progress, twoElementsCyclic, twoElements,
      LayerAnimationSequence.newWith, LayerAnimationSequence.new, AddElement, skipAhead,
      stepLoop, activeUpdate, resetAtEnd, modSize, elementAt, divDouble, divInt64,
      InMillisecondsF, bind, Except.bind, pure, Except.pure, Except.map]

/-! ## Counting the calls with fraction one -/

theorem fractionAt_congr (es : List LayerAnimationElement) (c1 c2 : Nat) (st1 st2 e1 e2 : Int)
    (hc : c1 % es.length = c2 % es.length) (hd : e1 - st1 = e2 - st2) :
    fractionAt es c1 st1 e1 = fractionAt es c2 st2 e2 := by
  unfold fractionAt
  rw [durAt_congr es c1 c2 hc, hd]

/-- The stepping loop on a non-empty sequence has no fault but running out of fuel. -/
theorem stepLoop_fault : ∀ (fuel : Nat) (s : LayerAnimationSequence) (e : Int)
    (calls : List Call) (f : Fault), s.elements_ ≠ [] →
    stepLoop fuel s e calls = .error f → f = Fault.outOfFuel := by
  intro fuel
  induction fuel with
  | zero =>
    intro s e calls f _ h
    simp only [stepLoop, Except.error.injEq] at h
    exact h.symm
  | succ fuel ih =>
    intro s e calls f hne h
    have hlen : s.elements_.length ≠ 0 := by
      intro h0; exact hne (List.length_eq_zero.mp h0)
    obtain ⟨el, hel, _, _⟩ := elementAt_mod s.elements_ hne s.last_element_
    rw [stepLoop, modSize_ok _ _ hlen] at h
    simp only [bind, Except.bind, pure, Except.pure, hel] at h
    by_cases h1 : (s.is_cyclic_ || decide (s.last_element_ < s.elements_.length)) = true
    · simp only [h1, if_true] at h
      by_cases h2 : s.last_start_ + el.duration < e
      · simp only [h2, if_true] at h
        exact ih { s with last_start_ := s.last_start_ + el.duration
                          last_element_ := s.last_element_ + 1 } _ _ _ hne h
      · simp [h2] at h
    · simp [h1] at h

/-- `Progress` has no fault but running out of fuel: no zero divisor, no index outside
`elements_`. -/
theorem Progress_fault (fuel : Nat) (s : LayerAnimationSequence) (e : Int) (f : Fault)
    (h : Progress fuel s e = .error f) : f = Fault.outOfFuel := by
  unfold Progress at h
  by_cases h0 : (s.elements_.length = 0 || decide (s.duration_ = 0)) = true
  · simp only [h0, if_true, pure, Except.pure] at h
    cases h
  · simp only [h0, Bool.false_eq_true, if_false] at h
    have hD : s.duration_ ≠ 0 := by
      intro hd; apply h0; simp [hd]
    have hne : s.elements_ ≠ [] := by
      intro hn; apply h0; simp [hn]
    rw [skipAhead_ok s e hD] at h
    simp only [bind, Except.bind] at h
    cases hl : stepLoop fuel { s with last_start_ := skipStart s e } e [] with
    | error g =>
      simp only [hl, Except.error.injEq] at h
      rw [← h]
      exact stepLoop_fault fuel { s with last_start_ := skipStart s e } e [] g hne hl
    | ok r =>
      obtain ⟨s2, c2⟩ := r
      simp only [hl] at h
      have hf := stepLoop_frame _ _ _ _ _ _ hl
      have hne2 : s2.elements_ ≠ [] := by rw [hf.1]; exact hne
      rw [activeUpdate_run s2 e c2 hne2] at h
      simp [pure, Except.pure] at h

/-- C17: whatever the sequence, the cursor state, the elapsed value and the number of
loop iterations allowed, `Progress` never meets a zero divisor: not the total duration in
the skip-ahead quotient, not the element count in `last_element_ % elements_.size()`, not
the duration of the active element in the fraction.  It never indexes outside
`elements_` either. -/
theorem C17_progress_no_zero_divisor (fuel : Nat) (s : LayerAnimationSequence) (elapsed : Int) :
    Progress fuel s elapsed ≠ .error Fault.divByZero ∧
      Progress fuel s elapsed ≠ .error Fault.outOfBounds := by
  constructor
  · intro h
    have := Progress_fault fuel s elapsed _ h
    cases this
  · intro h
    have := Progress_fault fuel s elapsed _ h
    cases this

theorem stepLoop_index_le : ∀ (fuel : Nat) (s : LayerAnimationSequence) (e : Int)
    (calls : List Call) (t : LayerAnimationSequence) (out : List Call),
    s.is_cyclic_ = false → s.last_element_ ≤ s.elements_.length →
    stepLoop fuel s e calls = .ok (t, out) → t.last_element_ ≤ t.elements_.length := by
  intro fuel
  induction fuel with
  | zero => intro s e calls t out _ _ h; simp [stepLoop] at h
  | succ fuel ih =>
    intro s e calls t out hcyc hle h
    rw [stepLoop] at h
    by_cases hlen : s.elements_.length = 0
    · simp [modSize, hlen, bind, Except.bind] at h
    · rw [modSize_ok _ _ hlen] at h
      simp only [bind, Except.bind, pure, Except.pure] at h
      by_cases h1 : (s.is_cyclic_ || decide (s.last_element_ < s.elements_.length)) = true
      · simp only [h1, if_true] at h
        have h1p : s.last_element_ < s.elements_.length := by
          rw [hcyc] at h1; simpa using h1
        cases hel : elementAt s.elements_ (s.last_element_ % s.elements_.length) with
        | error f => simp [hel] at h
        | ok el =>
          simp only [hel] at h
          by_cases h2 : s.last_start_ + el.duration < e
          · simp only [h2, if_true] at h
            exact ih { s with last_start_ := s.last_start_ + el.duration
                              last_element_ := s.last_element_ + 1 } _ _ _ _ hcyc h1p h
          · simp only [h2, if_false, Except.ok.injEq, Prod.mk.injEq] at h
            rw [← h.1]; exact hle
      · simp only [h1, Bool.false_eq_true, if_false, Except.ok.injEq, Prod.mk.injEq] at h
        rw [← h.1]; exact hle

theorem Progress_index_le (fuel : Nat) (s t : LayerAnimationSequence) (e : Int)
    (calls : List Call) (hcyc : s.is_cyclic_ = false)
    (hle : s.last_element_ ≤ s.elements_.length) (h : Progress fuel s e = .ok (t, calls)) :
    t.last_element_ ≤ t.elements_.length := by
  unfold Progress at h
  by_cases h0 : (s.elements_.length = 0 || decide (s.duration_ = 0)) = true
  · simp only [h0, if_true, pure, Except.pure, Except.ok.injEq, Prod.mk.injEq] at h
    rw [← h.1]; exact hle
  · simp only [h0, Bool.false_eq_true, if_false] at h
    have hD : s.duration_ ≠ 0 := by
      intro hd; apply h0; simp [hd]
    rw [skipAhead_ok s e hD] at h
    simp only [bind, Except.bind] at h
    cases hl : stepLoop fuel { s with last_start_ := skipStart s e } e [] with
    | error f => simp [hl] at h
    | ok r =>
      obtain ⟨s2, c2⟩ := r
      simp only [hl] at h
      have h2 := stepLoop_index_le _ { s with last_start_ := skipStart s e } _ _ _ _ hcyc hle hl
      cases ha : activeUpdate s2 e c2 with
      | error f => simp [ha] at h
      | ok c3 =>
        simp only [ha, pure, Except.pure, Except.ok.injEq, Prod.mk.injEq] at h
        rw [← h.1]
        unfold resetAtEnd
        split
        · exact Nat.zero_le _
        · exact h2

/-- C14: in every state reached from construction by `AddElement`, `Progress` (with any
elapsed value and any number of loop iterations allowed) and `Abort` calls, a sequence
that stays non-cyclic has `last_element_` at most the number of its elements. -/
theorem C14_cursor_index_bounded (s : LayerAnimationSequence) (h : Reachable s) :
    s.last_element_ ≤ s.elements_.length := by
  induction h with
  | new => exact Nat.le_refl _
  | newWith el => exact Nat.zero_le _
  | addElement s el _ ih =>
    simp only [AddElement, List.length_append, List.length_singleton]
    omega
  | progress s t fuel e calls hs hp ih =>
    exact Progress_index_le fuel s t e calls (Reachable_aggregates s hs).2.2 ih hp
  | abort s t calls _ ha _ =>
    rw [(Abort_frame _ _ _ ha).2.1]
    exact Nat.zero_le _

/-- Witness for C14: the two-element sequence after `Progress 50` and `Progress 150`. -/
theorem C14_cursor_index_bounded_witness :
    twoElementsAfter150.last_element_ ≤ twoElementsAfter150.elements_.length :=
  C14_cursor_index_bounded twoElementsAfter150 twoElementsAfter150_reachable

/-! ## Order of the calls within one Progress call -/

theorem passCalls_length (es : List LayerAnimationElement) (c m : Nat) :
    (passCalls es c m).length = m := by
  simp [passCalls]

theorem passCalls_getElem? (es : List LayerAnimationElement) (c m j : Nat) (rest : List Call)
    (hj : j < m) :
    (passCalls es c m ++ rest)[j]? = some (Call.progress ((c + j) % es.length) 1) := by
  rw [List.getElem?_append_left (by rw [passCalls_length]; exact hj)]
  simp [passCalls, List.getElem?_range hj]

theorem activeCalls_length_le (es : List LayerAnimationElement) (cyc : Bool) (c : Nat)
    (st e : Int) : (activeCalls es cyc c st e).length ≤ 1 := by
  unfold activeCalls
  split <;> simp

theorem positive_total_nonempty (s : LayerAnimationSequence)
    (hagg : s.duration_ = totalDuration s.elements_) (hpos : 0 < s.duration_) :
    s.elements_ ≠ [] := by
  intro h
  rw [hagg, h] at hpos
  simp [totalDuration] at hpos

/-- C11: one `Progress` call on a sequence with elements and positive total duration
returns; its `j`-th element call targets index `(c + j) mod n`, where `c` is
`last_element_` at entry; every call but possibly the last has fraction one; the first
`m` calls are the calls with fraction one of the stepping loop, and `last_element_` has
advanced by exactly that `m` (unless the final reset of a non-cyclic sequence at
`elapsed = duration_` has put it back to zero). -/
theorem C11_calls_in_order (s : LayerAnimationSequence) (elapsed : Int)
    (hagg : s.duration_ = totalDuration s.elements_) (hpos : 0 < s.duration_) :
    ∃ m t calls,
      (∀ fuel, 2 * s.elements_.length ≤ fuel → Progress fuel s elapsed = .ok (t, calls)) ∧
      (∀ j, j < calls.length → ∃ x,
        calls[j]? = some (Call.progress ((s.last_element_ + j) % s.elements_.length) x) ∧
        (j + 1 < calls.length → x = 1)) ∧
      m ≤ calls.length ∧ calls.length ≤ m + 1 ∧
      (∀ j, j < m →
        calls[j]? = some (Call.progress ((s.last_element_ + j) % s.elements_.length) 1)) ∧
      (t.last_element_ = s.last_element_ + m ∨
        (t.last_element_ = 0 ∧ s.is_cyclic_ = false ∧ elapsed = s.duration_)) := by
  have hne := positive_total_nonempty s hagg hpos
  obtain ⟨m, hm, _, _, hP⟩ := Progress_total s elapsed hne hagg hpos
  have hlt := stepBound_lt s hne
  have hlen : (passCalls s.elements_ s.last_element_ m ++
      activeCalls s.elements_ s.is_cyclic_ (s.last_element_ + m)
        (skipStart s elapsed + windowSum s.elements_ s.last_element_ m) elapsed).length =
      m + (activeCalls s.elements_ s.is_cyclic_ (s.last_element_ + m)
        (skipStart s elapsed + windowSum s.elements_ s.last_element_ m) elapsed).length := by
    rw [List.length_append, passCalls_length]
  have hact := activeCalls_length_le s.elements_ s.is_cyclic_ (s.last_element_ + m)
    (skipStart s elapsed + windowSum s.elements_ s.last_element_ m) elapsed
  refine ⟨m, _, _, fun fuel hf => hP fuel (by omega), ?_, ?_, ?_, ?_, ?_⟩
  · intro j hj
    rw [hlen] at hj
    by_cases hjm : j < m
    · exact ⟨1, passCalls_getElem? _ _ _ _ _ hjm, fun _ => rfl⟩
    · have hjeq : j = m := by omega
      subst hjeq
      refine ⟨fractionAt s.elements_ (s.last_element_ + j)
        (skipStart s elapsed + windowSum s.elements_ s.last_element_ j) elapsed, ?_, ?_⟩
      · rw [List.getElem?_append_right (by rw [passCalls_length]), passCalls_length,
          Nat.sub_self]
        unfold activeCalls at hj ⊢
        split
        · rfl
        · next hno => simp [hno] at hj
      · intro h2
        rw [hlen] at h2
        omega
  · rw [hlen]; omega
  · rw [hlen]; omega
  · intro j hj
    exact passCalls_getElem? _ _ _ _ _ hj
  · unfold resetAtEnd
    split
    · next hr =>
      right
      simp only [Bool.and_eq_true, Bool.not_eq_true', decide_eq_true_eq] at hr
      exact ⟨rfl, hr.1, hr.2⟩
    · left; rfl

/-- Witness for C11: the two-element scenario at 150 ms. -/
theorem C11_calls_in_order_witness :
    ∃ m t calls,
      (∀ fuel, 2 * twoElements.elements_.length ≤ fuel →
        Progress fuel twoElements 150 = .ok (t, calls)) ∧
      (∀ j, j < calls.length → ∃ x,
        calls[j]? = some (Call.progress
          ((twoElements.last_element_ + j) % twoElements.elements_.length) x) ∧
        (j + 1 < calls.length → x = 1)) ∧
      m ≤ calls.length ∧ calls.length ≤ m + 1 ∧
      (∀ j, j < m →
        calls[j]? = some (Call.progress
          ((twoElements.last_element_ + j) % twoElements.elements_.length) 1)) ∧
      (t.last_element_ = twoElements.last_element_ + m ∨
        (t.last_element_ = 0 ∧ twoElements.is_cyclic_ = false ∧
          (150 : Int) = twoElements.duration_)) :=
  C11_calls_in_order twoElements 150 twoElements_wf.2.1 twoElements_wf.2.2.1

/-! ## Zero durations and the cursor-start invariant -/

theorem durAt_of_getElem? (es : List LayerAnimationElement) (c : Nat)
    (el : LayerAnimationElement) (h : es[c % es.length]? = some el) :
    durAt es c = el.duration := by
  simp [durAt, h]

/-- C12: one `Progress` call on a sequence with positive total duration returns, and if
its last element call targets an element of zero duration, the fraction it passes is
exactly one, whatever the elapsed value and the cursor are. -/
theorem C12_zero_duration_fraction_one (s : LayerAnimationSequence) (elapsed : Int)
    (hagg : s.duration_ = totalDuration s.elements_) (hpos : 0 < s.duration_) :
    ∃ t calls,
      (∀ fuel, 2 * s.elements_.length ≤ fuel → Progress fuel s elapsed = .ok (t, calls)) ∧
      ∀ i x el, calls.getLast? = some (Call.progress i x) → s.elements_[i]? = some el →
        el.duration = 0 → x = 1 := by
  have hne := positive_total_nonempty s hagg hpos
  obtain ⟨m, hm, _, _, hP⟩ := Progress_total s elapsed hne hagg hpos
  have hlt := stepBound_lt s hne
  refine ⟨_, _, fun fuel hf => hP fuel (by omega), ?_⟩
  intro i x el hlast hel hz
  have hmem := List.mem_of_mem_getLast? hlast
  rcases List.mem_append.mp hmem with hx | hx
  · simp only [passCalls, List.mem_map] at hx
    obtain ⟨j, _, hj⟩ := hx
    cases hj
    rfl
  · unfold activeCalls at hx
    split at hx
    · simp only [List.mem_singleton, Call.progress.injEq] at hx
      obtain ⟨hi, hxv⟩ := hx
      rw [hi] at hel
      have hd := durAt_of_getElem? s.elements_ _ el hel
      rw [hxv]
      unfold fractionAt
      rw [hd, hz]
      simp
    · simp at hx

/-- Witness for C12: durations 0 and 100 at elapsed value 0, where the zero-duration
element is the active one. -/
theorem C12_zero_duration_fraction_one_witness :
    ∃ t calls,
      (∀ fuel, 2 * zeroFirst.elements_.length ≤ fuel →
        Progress fuel zeroFirst 0 = .ok (t, calls)) ∧
      ∀ i x el, calls.getLast? = some (Call.progress i x) → zeroFirst.elements_[i]? = some el →
        el.duration = 0 → x = 1 :=
  C12_zero_duration_fraction_one zeroFirst 0
    (by simp [zeroFirst, LayerAnimationSequence.newWith, LayerAnimationSequence.new, AddElement,
      totalDuration])
    (by simp [zeroFirst, LayerAnimationSequence.newWith, LayerAnimationSequence.new,
      AddElement])

theorem ProgressNoSkip_run (s : LayerAnimationSequence) (e : Int) (m fuel : Nat)
    (hne : s.elements_ ≠ []) (hD : s.duration_ ≠ 0) (hf : m < fuel)
    (hrun : ∀ i, i < m →
      loopTest s.elements_ s.is_cyclic_ s.last_element_ s.last_start_ e i)
    (hstop : ¬ loopTest s.elements_ s.is_cyclic_ s.last_element_ s.last_start_ e m) :
    ProgressNoSkip fuel s e =
      .ok (resetAtEnd
            { s with last_element_ := s.last_element_ + m
                     last_start_ := s.last_start_ + windowSum s.elements_ s.last_element_ m } e,
           passCalls s.elements_ s.last_element_ m ++
             activeCalls s.elements_ s.is_cyclic_ (s.last_element_ + m)
               (s.last_start_ + windowSum s.elements_ s.last_element_ m) e) := by
  have hlen : s.elements_.length ≠ 0 := by
    intro h; exact hne (List.length_eq_zero.mp h)
  unfold ProgressNoSkip
  simp only [hlen, hD, decide_False, Bool.or_self, Bool.false_eq_true, if_false]
  simp only [bind, Except.bind]
  rw [stepLoop_run s.elements_ hne e m s [] fuel rfl hf hrun hstop]
  simp only [List.nil_append]
  rw [activeUpdate_run
    { s with last_element_ := s.last_element_ + m
             last_start_ := s.last_start_ + windowSum s.elements_ s.last_element_ m } e _ hne]
  rfl

theorem skipStart_cycles (s : LayerAnimationSequence) (e : Int) (hcyc : s.is_cyclic_ = true) :
    skipStart s e = s.last_start_ + (skippedCycles s e : Int) * s.duration_ := by
  unfold skipStart skippedCycles
  by_cases h : Int.tdiv (e - s.last_start_) s.duration_ - 1 > 0
  · have h2 : s.is_cyclic_ = true ∧ Int.tdiv (e - s.last_start_) s.duration_ - 1 > 0 := ⟨hcyc, h⟩
    simp only [h2, and_self, if_true]
    rw [Int.toNat_of_nonneg (le_of_lt h)]
  · have h2 : ¬ (s.is_cyclic_ = true ∧ Int.tdiv (e - s.last_start_) s.duration_ - 1 > 0) :=
      fun hh => h hh.2
    simp only [h2, if_false]
    rw [Int.toNat_eq_zero.mpr (by omega)]
    simp

theorem windowSum_cycles_add (es : List LayerAnimationElement) (c K j : Nat) :
    windowSum es c (K * es.length + j) = (K : Int) * totalDuration es + windowSum es c j := by
  rw [windowSum_add, windowSum_cycles,
    windowSum_congr es j (c + K * es.length) c (Nat.add_mul_mod_self_right _ _ _)]

/-- C15: on a cyclic sequence of non-negative durations with positive total, in any
cursor state and for `elapsed ≥ last_start_`, `Progress` and the same procedure without
the skip-ahead block both return and finish with the same `last_start_`, the same active
index `last_element_ mod n` and the same last element call (same element, same
fraction); the final `last_element_` of the procedure without skip-ahead exceeds that of
`Progress` by exactly `k n`, where `k` is the number of cycles skipped (zero when the
skip-ahead does not fire). -/
theorem C15_skip_ahead_refines_stepping (s : LayerAnimationSequence) (elapsed : Int)
    (hcyc : s.is_cyclic_ = true) (hnn : NonNegDurations s.elements_)
    (hagg : s.duration_ = totalDuration s.elements_) (hpos : 0 < s.duration_)
    (_hd : s.last_start_ ≤ elapsed) :
    ∃ t1 calls1 t2 calls2 i x,
      (∀ fuel, 2 * s.elements_.length ≤ fuel → Progress fuel s elapsed = .ok (t1, calls1)) ∧
      (∀ fuel, (skippedCycles s elapsed + 2) * s.elements_.length ≤ fuel →
        ProgressNoSkip fuel s elapsed = .ok (t2, calls2)) ∧
      t1.last_start_ = t2.last_start_ ∧
      t1.last_element_ % s.elements_.length = i ∧ t2.last_element_ % s.elements_.length = i ∧
      calls1.getLast? = some (Call.progress i x) ∧
      calls2.getLast? = some (Call.progress i x) ∧
      t2.last_element_ = t1.last_element_ + skippedCycles s elapsed * s.elements_.length := by
  have hne := positive_total_nonempty s hagg hpos
  have hlen : 0 < s.elements_.length := List.length_pos.mpr hne
  have hst1 := skipStart_cycles s elapsed hcyc
  obtain ⟨k, hk1, _, hk3, _⟩ := skipStart_spec s elapsed hpos
  have hkK : (k : Int) = (skippedCycles s elapsed : Int) := by
    have h1 : ((k : Int) - (skippedCycles s elapsed : Int)) * s.duration_ = 0 := by
      have := hk1.symm.trans hst1
      linarith
    rcases Int.mul_eq_zero.mp h1 with h | h
    · omega
    · omega
  have hK : 0 < skippedCycles s elapsed → s.duration_ ≤ elapsed - skipStart s elapsed := by
    intro h
    exact hk3 (by omega)
  obtain ⟨m, hm, hrun, hstop, hP⟩ := Progress_total s elapsed hne hagg hpos
  have hb : stepBound s = 2 * s.elements_.length - 1 := by simp [stepBound, hcyc]
  rw [hb] at hm
  have hshift : ∀ j, s.last_start_ + windowSum s.elements_ s.last_element_
      (skippedCycles s elapsed * s.elements_.length + j) =
      skipStart s elapsed + windowSum s.elements_ s.last_element_ j := by
    intro j
    rw [windowSum_cycles_add, hst1, ← hagg]
    ring
  have hrun0 : ∀ i, i < skippedCycles s elapsed * s.elements_.length + m →
      loopTest s.elements_ s.is_cyclic_ s.last_element_ s.last_start_ elapsed i := by
    intro i hi
    refine ⟨Or.inl hcyc, ?_⟩
    by_cases hik : i < skippedCycles s elapsed * s.elements_.length
    · have hKpos : 0 < skippedCycles s elapsed := by
        by_contra hc
        have : skippedCycles s elapsed = 0 := by omega
        rw [this] at hik
        omega
      have h1 := windowSum_mono s.elements_ hnn s.last_element_ (i + 1)
        (skippedCycles s elapsed * s.elements_.length) (by omega)
      have h2 := hshift 0
      simp only [Nat.add_zero, windowSum, add_zero] at h2
      have h3 := hK hKpos
      omega
    · have h1 := (hrun (i - skippedCycles s elapsed * s.elements_.length) (by omega)).2
      have h2 := hshift (i - skippedCycles s elapsed * s.elements_.length + 1)
      have h3 : skippedCycles s elapsed * s.elements_.length +
          (i - skippedCycles s elapsed * s.elements_.length + 1) = i + 1 := by omega
      rw [h3] at h2
      omega
  have hstop0 : ¬ loopTest s.elements_ s.is_cyclic_ s.last_element_ s.last_start_ elapsed
      (skippedCycles s elapsed * s.elements_.length + m) := by
    intro hc
    apply hstop
    refine ⟨Or.inl hcyc, ?_⟩
    have h1 := hc.2
    have h2 := hshift (m + 1)
    have h3 : skippedCycles s elapsed * s.elements_.length + (m + 1) =
        skippedCycles s elapsed * s.elements_.length + m + 1 := by omega
    rw [h3] at h2
    omega
  have hmod : (s.last_element_ + (skippedCycles s elapsed * s.elements_.length + m)) %
      s.elements_.length = (s.last_element_ + m) % s.elements_.length := by
    have : s.last_element_ + (skippedCycles s elapsed * s.elements_.length + m) =
        s.last_element_ + m + skippedCycles s elapsed * s.elements_.length := by omega
    rw [this, Nat.add_mul_mod_self_right]
  refine ⟨_, _, _, _, (s.last_element_ + m) % s.elements_.length,
    fractionAt s.elements_ (s.last_element_ + m)
      (skipStart s elapsed + windowSum s.elements_ s.last_element_ m) elapsed,
    fun fuel hf => hP fuel (by omega),
    fun fuel hf => ProgressNoSkip_run s elapsed
      (skippedCycles s elapsed * s.elements_.length + m) fuel hne (ne_of_gt hpos)
      (by
        have : (skippedCycles s elapsed + 2) * s.elements_.length =
          skippedCycles s elapsed * s.elements_.length + 2 * s.elements_.length := by ring
        omega) hrun0 hstop0, ?_, ?_, ?_, ?_, ?_, ?_⟩
  · simp only [resetAtEnd, hcyc, Bool.not_true, Bool.false_and, Bool.false_eq_true, if_false]
    exact (hshift m).symm
  · simp only [resetAtEnd, hcyc, Bool.not_true, Bool.false_and, Bool.false_eq_true, if_false]
  · simp only [resetAtEnd, hcyc, Bool.not_true, Bool.false_and, Bool.false_eq_true, if_false]
    exact hmod
  · rw [getLast_append_activeCalls _ _ _ _ _ _ (Or.inl hcyc)]
  · rw [getLast_append_activeCalls _ _ _ _ _ _ (Or.inl hcyc), hmod,
      fractionAt_congr s.elements_ _ (s.last_element_ + m) _
        (skipStart s elapsed + windowSum s.elements_ s.last_element_ m) _ elapsed hmod
        (by rw [hshift])]
  · simp only [resetAtEnd, hcyc, Bool.not_true, Bool.false_and, Bool.false_eq_true, if_false]
    omega

/-- Witness for C15: the cyclic two-element sequence at 750 ms, where one cycle is
skipped. -/
theorem C15_skip_ahead_refines_stepping_witness :
    ∃ t1 calls1 t2 calls2 i x,
      (∀ fuel, 2 * twoElementsCyclic.elements_.length ≤ fuel →
        Progress fuel twoElementsCyclic 750 = .ok (t1, calls1)) ∧
      (∀ fuel, (skippedCycles twoElementsCyclic 750 + 2) * twoElementsCyclic.elements_.length
          ≤ fuel → ProgressNoSkip fuel twoElementsCyclic 750 = .ok (t2, calls2)) ∧
      t1.last_start_ = t2.last_start_ ∧
      t1.last_element_ % twoElementsCyclic.elements_.length = i ∧
      t2.last_element_ % twoElementsCyclic.elements_.length = i ∧
      calls1.getLast? = some (Call.progress i x) ∧
      calls2.getLast? = some (Call.progress i x) ∧
      t2.last_element_ = t1.last_element_ +
        skippedCycles twoElementsCyclic 750 * twoElementsCyclic.elements_.length :=
  C15_skip_ahead_refines_stepping twoElementsCyclic 750 rfl (twoElementsCyclic_wf.2.2.2 rfl)
    twoElementsCyclic_wf.2.1 twoElementsCyclic_wf.2.2.1 (by decide)

/-! ## Abort and completion at the edges -/

theorem Abort_run (s : LayerAnimationSequence) (hne : s.elements_ ≠ []) :
    Abort s = .ok ({ s with last_element_ := 0, last_start_ := 0 },
      (List.range' (s.last_element_ % s.elements_.length)
        (s.elements_.length - s.last_element_ % s.elements_.length)).map Call.abort) := by
  have hlen : s.elements_.length ≠ 0 := by
    intro h; exact hne (List.length_eq_zero.mp h)
  unfold Abort
  rw [modSize_ok _ _ hlen]
  simp only [bind, Except.bind, pure, Except.pure]
  rw [abortLoop_eq _ _ _ _ rfl]
  simp

/-- C18, evaluated at the sequence made by the default constructor: `Abort` computes
`last_element_ % elements_.size()` with `elements_.size() = 0`, a zero divisor, and has no
defined result. -/
theorem C18_abort_on_empty_sequence :
    Abort LayerAnimationSequence.new = .error Fault.divByZero := by
  simp [Abort, modSize, LayerAnimationSequence.new, bind, Except.bind]

set_option maxRecDepth 8000 in
/-- Counterexample to C19 as stated: durations 100 and 200, not cyclic: `Progress 400`
from `(0, 0)` completes the pass (`last_element_ = 2`, the number of elements), and
`Abort` in that state calls `Abort` on element 0 and on element 1, since `2 % 2 = 0`. -/
theorem C19_counterexample :
    Progress 3 twoElements 400 =
      .ok (twoElementsCompleted, [Call.progress 0 1, Call.progress 1 1]) ∧
    Abort twoElementsCompleted =
      .ok ({ twoElementsCompleted with last_element_ := 0, last_start_ := 0 },
        [Call.abort 0, Call.abort 1]) := by
  constructor
  · simp [Progress, twoElementsCompleted, twoElements, LayerAnimationSequence.newWith,
      LayerAnimationSequence.new, AddElement, skipAhead, stepLoop, activeUpdate, resetAtEnd,
      modSize, elementAt, divDouble, InMillisecondsF, bind, Except.bind, pure, Except.pure]
  · rw [Abort_run twoElementsCompleted (by simp [twoElementsCompleted, twoElements,
      LayerAnimationSequence.newWith, LayerAnimationSequence.new, AddElement])]
    simp [twoElementsCompleted, twoElements, LayerAnimationSequence.newWith,
      LayerAnimationSequence.new, AddElement, List.range']

set_option maxRecDepth 8000 in
/-- C20, evaluated on durations 100 and 0, not cyclic, from `(0, 0)`: `Progress 100`, at
an elapsed value equal to the total duration, makes one call, on element 0 with fraction
one, makes no call on element 1, and resets the cursor to `(0, 0)`. -/
theorem C20_completion_skips_trailing_zero_duration :
    Progress 3 zeroLast 100 = .ok (zeroLast, [Call.progress 0 1]) := by
  simp [Progress, zeroLast, LayerAnimationSequence.newWith, LayerAnimationSequence.new,
    AddElement, skipAhead, stepLoop, activeUpdate, resetAtEnd, modSize, elementAt, divDouble,
    InMillisecondsF, bind, Except.bind, pure, Except.pure]

/-! ## Machine arithmetic: rounding to double -/

theorem wrapInt64_of_fits (x : Int) (h1 : -2 ^ 63 ≤ x) (h2 : x < 2 ^ 63) : wrapInt64 x = x := by
  unfold wrapInt64
  rw [Int.emod_eq_of_lt (by omega) (by omega)]
  omega

theorem roundHalfEven_error (y : ℚ) : |(roundHalfEven y : ℚ) - y| ≤ 1 / 2 := by
  have h1 := Int.floor_le y
  have h2 := Int.lt_floor_add_one y
  unfold roundHalfEven
  rw [abs_le]
  split
  · constructor <;> linarith
  · split
    · push_cast; constructor <;> linarith
    · split
      · constructor <;> linarith
      · push_cast; constructor <;> linarith

theorem roundHalfEven_intCast (n : Int) : roundHalfEven (n : ℚ) = n := by
  unfold roundHalfEven
  have h : ((n : ℚ)) - ((⌊(n : ℚ)⌋ : Int) : ℚ) < 1 / 2 := by
    rw [Int.floor_intCast]
    norm_num
  rw [if_pos h, Int.floor_intCast]

theorem le_roundHalfEven (n : Int) (y : ℚ) (h : (n : ℚ) ≤ y) : n ≤ roundHalfEven y := by
  have h1 : n ≤ ⌊y⌋ := Int.le_floor.mpr h
  unfold roundHalfEven
  split_ifs <;> omega

theorem roundHalfEven_le (n : Int) (y : ℚ) (h : y ≤ (n : ℚ)) : roundHalfEven y ≤ n := by
  have hf := Int.floor_le y
  have h1 : ⌊y⌋ ≤ n := by
    have : ((⌊y⌋ : Int) : ℚ) ≤ (n : ℚ) := le_trans hf h
    exact_mod_cast this
  unfold roundHalfEven
  split
  · exact h1
  · next hlt =>
    have h2 : ⌊y⌋ < n := by
      have : ((⌊y⌋ : Int) : ℚ) < (n : ℚ) := by
        have h3 : (1 : ℚ) / 2 ≤ y - (⌊y⌋ : ℚ) := not_lt.mp hlt
        linarith
      exact_mod_cast this
    split_ifs <;> omega

/-- The power of two below a positive rational, and the one above. -/
theorem log_bracket (x : ℚ) (hx : 0 < x) :
    (2 : ℚ) ^ Int.log 2 x ≤ x ∧ x < (2 : ℚ) ^ Int.log 2 x * 2 := by
  constructor
  · have h := Int.zpow_log_le_self (b := 2) (r := x) (by norm_num) hx
    simpa using h
  · have h := Int.lt_zpow_succ_log_self (b := 2) (by norm_num) x
    rw [zpow_add₀ (by norm_num)] at h
    simpa using h

theorem ulp_eq (E : Int) : (2 : ℚ) ^ (E - 52) = (2 : ℚ) ^ E / 2 ^ 52 := by
  rw [zpow_sub₀ (by norm_num)]
  norm_num

/-- A positive rational is rounded to its scaled and rounded significand times the unit
in the last place. -/
theorem roundDouble_eq (x : ℚ) (hx : 0 < x) :
    roundDouble x = (roundHalfEven (x / ((2 : ℚ) ^ Int.log 2 x / 2 ^ 52)) : ℚ) *
      ((2 : ℚ) ^ Int.log 2 x / 2 ^ 52) := by
  unfold roundDouble
  rw [if_neg (ne_of_gt hx), abs_of_pos hx, ulp_eq]

/-- The significand of a rounded positive rational lies between `2 ^ 52` and `2 ^ 53`. -/
theorem significand_bounds (x : ℚ) (hx : 0 < x) :
    2 ^ 52 ≤ roundHalfEven (x / ((2 : ℚ) ^ Int.log 2 x / 2 ^ 52)) ∧
      roundHalfEven (x / ((2 : ℚ) ^ Int.log 2 x / 2 ^ 52)) ≤ 2 ^ 53 := by
  obtain ⟨hlo, hhi⟩ := log_bracket x hx
  have hP : (0 : ℚ) < (2 : ℚ) ^ Int.log 2 x := zpow_pos (by norm_num) _
  have hu : (0 : ℚ) < (2 : ℚ) ^ Int.log 2 x / 2 ^ 52 := div_pos hP (by norm_num)
  constructor
  · apply le_roundHalfEven
    rw [le_div_iff₀ hu]
    have : (((2 : Int) ^ 52 : Int) : ℚ) * ((2 : ℚ) ^ Int.log 2 x / 2 ^ 52) =
        (2 : ℚ) ^ Int.log 2 x := by
      push_cast
      field_simp
      ring
    rw [this]
    exact hlo
  · apply roundHalfEven_le
    rw [div_le_iff₀ hu]
    have : (((2 : Int) ^ 53 : Int) : ℚ) * ((2 : ℚ) ^ Int.log 2 x / 2 ^ 52) =
        (2 : ℚ) ^ Int.log 2 x * 2 := by
      push_cast
      field_simp
      ring
    rw [this]
    exact le_of_lt hhi

theorem roundDouble_pos (x : ℚ) (hx : 0 < x) : 0 < roundDouble x := by
  obtain ⟨h1, _⟩ := significand_bounds x hx
  rw [roundDouble_eq x hx]
  have hP : (0 : ℚ) < (2 : ℚ) ^ Int.log 2 x := zpow_pos (by norm_num) _
  have hN : (0 : ℚ) < (roundHalfEven (x / ((2 : ℚ) ^ Int.log 2 x / 2 ^ 52)) : ℚ) := by
    have : (0 : Int) < roundHalfEven (x / ((2 : ℚ) ^ Int.log 2 x / 2 ^ 52)) := by omega
    exact_mod_cast this
  exact mul_pos hN (div_pos hP (by norm_num))

/-- Integers below `2 ^ 53` are doubles. -/
theorem roundDouble_intCast (t : Int) (h0 : 0 < t) (h1 : t < 2 ^ 53) :
    roundDouble (t : ℚ) = t := by
  have htq : (0 : ℚ) < (t : ℚ) := by exact_mod_cast h0
  have hE : Int.log 2 (t : ℚ) < 53 := by
    apply (Int.lt_zpow_iff_log_lt (b := 2) (by norm_num) htq).mp
    have : (t : ℚ) < 2 ^ 53 := by exact_mod_cast h1
    norm_num at this ⊢
    exact this
  obtain ⟨p, hp⟩ := Int.eq_ofNat_of_zero_le (by omega : 0 ≤ 52 - Int.log 2 (t : ℚ))
  have hu : (2 : ℚ) ^ Int.log 2 (t : ℚ) / 2 ^ 52 = ((2 : ℚ) ^ p)⁻¹ := by
    rw [← ulp_eq, show Int.log 2 (t : ℚ) - 52 = -(p : Int) by omega, zpow_neg, zpow_natCast]
  rw [roundDouble_eq _ htq, hu]
  have hp2 : (0 : ℚ) < (2 : ℚ) ^ p := pow_pos (by norm_num) _
  have hint : (t : ℚ) / ((2 : ℚ) ^ p)⁻¹ = ((t * 2 ^ p : Int) : ℚ) := by
    push_cast
    field_simp
  rw [hint, roundHalfEven_intCast]
  push_cast
  field_simp

/-- The rounded millisecond value of a positive microsecond count is positive. -/
theorem InMillisecondsF64_pos (t : Int) (ht : 0 < t) : 0 < InMillisecondsF64 t := by
  have htq : (0 : ℚ) < (t : ℚ) := by exact_mod_cast ht
  unfold InMillisecondsF64
  exact roundDouble_pos _ (div_pos (roundDouble_pos _ htq) (by norm_num))

theorem roundDouble_one : roundDouble 1 = 1 := by
  have h := roundDouble_intCast 1 (by norm_num) (by norm_num)
  simpa using h

/-- A rational within one half of an integer, on either side and not at the midpoint, is
rounded to that integer. -/
theorem roundHalfEven_near (n : Int) (y : ℚ) (h1 : (n : ℚ) - 1 / 2 < y)
    (h2 : y < (n : ℚ) + 1 / 2) : roundHalfEven y = n := by
  have he := roundHalfEven_error y
  rw [abs_le] at he
  have a1 : ((roundHalfEven y : Int) : ℚ) < (n : ℚ) + 1 := by linarith [he.2]
  have a2 : (n : ℚ) - 1 < ((roundHalfEven y : Int) : ℚ) := by linarith [he.1]
  have b1 : roundHalfEven y < n + 1 := by exact_mod_cast a1
  have b2 : n - 1 < roundHalfEven y := by exact_mod_cast a2
  omega

/-- The rounded millisecond value of a microsecond count between `2 ^ 43` and `2 ^ 44`
milliseconds, given the nearest multiple `N / 512` of the unit in the last place. -/
theorem InMillisecondsF64_at (t N : Int) (h0 : 8796093022208000 ≤ t)
    (h1 : t < 9007199254740992)
    (hlo : (N : ℚ) - 1 / 2 < (t : ℚ) * 512 / 1000)
    (hhi : (t : ℚ) * 512 / 1000 < (N : ℚ) + 1 / 2) :
    InMillisecondsF64 t = (N : ℚ) / 512 := by
  have htq : (8796093022208000 : ℚ) ≤ (t : ℚ) := by exact_mod_cast h0
  have htq2 : (t : ℚ) < 9007199254740992 := by exact_mod_cast h1
  have hu : (0 : ℚ) < (t : ℚ) / 1000 := by
    apply div_pos _ (by norm_num)
    linarith
  have hlog : Int.log 2 ((t : ℚ) / 1000) = 43 := by
    apply le_antisymm
    · have : Int.log 2 ((t : ℚ) / 1000) < 44 := by
        apply (Int.lt_zpow_iff_log_lt (b := 2) (by norm_num) hu).mp
        rw [div_lt_iff₀ (by norm_num)]
        norm_num
        linarith
      omega
    · apply (Int.zpow_le_iff_le_log (b := 2) (by norm_num) hu).mp
      rw [le_div_iff₀ (by norm_num)]
      norm_num
      linarith
  unfold InMillisecondsF64
  rw [roundDouble_intCast t (by omega) (by omega), roundDouble_eq _ hu, hlog]
  have hulp : (2 : ℚ) ^ (43 : Int) / 2 ^ 52 = 1 / 512 := by norm_num
  rw [hulp]
  have hy : (t : ℚ) / 1000 / (1 / 512) = (t : ℚ) * 512 / 1000 := by
    field_simp
  rw [hy, roundHalfEven_near N _ hlo hhi]
  ring

/-- The bound `1000 * 2 ^ 43` of `fraction64_lt_one` cannot be raised: one microsecond
above it, and one microsecond before the end of an element, the rounded fraction is
already one. -/
theorem fraction64_one_beyond :
    roundDouble (InMillisecondsF64 8796093022208001 / InMillisecondsF64 8796093022208002) = 1 := by
  rw [InMillisecondsF64_at 8796093022208001 4503599627370497 (by norm_num) (by norm_num)
      (by norm_num) (by norm_num),
    InMillisecondsF64_at 8796093022208002 4503599627370497 (by norm_num) (by norm_num)
      (by norm_num) (by norm_num)]
  rw [div_self (by norm_num)]
  exact roundDouble_one

/-! ## Machine arithmetic: int64 operations that do not overflow -/

theorem duration_le_total (es : List LayerAnimationElement) (hnn : NonNegDurations es)
    (el : LayerAnimationElement) (hel : el ∈ es) : el.duration ≤ totalDuration es := by
  induction es with
  | nil => simp at hel
  | cons x xs ih =>
    have hx : 0 ≤ x.duration := hnn x (List.mem_cons_self _ _)
    have hxs : NonNegDurations xs := fun y hy => hnn y (List.mem_cons_of_mem _ hy)
    have hrest := totalDuration_nonneg xs hxs
    have hcons : totalDuration (x :: xs) = x.duration + totalDuration xs := by
      simp [totalDuration]
    rw [hcons]
    rcases List.mem_cons.mp hel with h | h
    · rw [h]; omega
    · have := ih hxs h
      omega

theorem durAt_le_total (es : List LayerAnimationElement) (hne : es ≠ [])
    (hnn : NonNegDurations es) (c : Nat) : durAt es c ≤ totalDuration es := by
  obtain ⟨el, _, hdur, hget⟩ := elementAt_mod es hne c
  rw [← hdur]
  exact duration_le_total es hnn el (List.getElem?_mem hget)

theorem tdiv_bounds (a d : Int) (hd : 0 < d) :
    (0 ≤ a → 0 ≤ Int.tdiv a d ∧ Int.tdiv a d * d ≤ a) ∧
      (a < 0 → a ≤ Int.tdiv a d ∧ Int.tdiv a d ≤ 0) := by
  constructor
  · intro ha
    rw [Int.tdiv_eq_ediv ha (le_of_lt hd)]
    exact ⟨Int.ediv_nonneg ha (le_of_lt hd), Int.ediv_mul_le a (ne_of_gt hd)⟩
  · intro ha
    have h1 : Int.tdiv a d = -Int.tdiv (-a) d := by
      rw [Int.neg_tdiv]; simp
    have h2 : 0 ≤ -a := by omega
    rw [Int.tdiv_eq_ediv h2 (le_of_lt hd)] at h1
    have h3 : 0 ≤ -a / d := Int.ediv_nonneg h2 (le_of_lt hd)
    have h4 : -a / d ≤ -a := Int.ediv_le_self _ h2
    omega

/-- When no operation of the skip-ahead block overflows, it computes in `int64` what it
computes on the integers. -/
theorem skipAhead64_eq (s : LayerAnimationSequence) (e : Int) (hpos : 0 < s.duration_)
    (hfit : SkipFits s e) : skipAhead64 s e = skipAhead s e := by
  unfold skipAhead64 skipAhead
  cases hc : s.is_cyclic_ with
  | false => simp only [Bool.false_eq_true, if_false]
  | true =>
    obtain ⟨f1, f2, f3, f4⟩ := hfit hc
    simp only [if_true, divInt64Wrap, divInt64, ne_of_gt hpos, if_false, bind, Except.bind]
    rw [wrapInt64_of_fits _ f1.1 f1.2, wrapInt64_of_fits _ f2.1 f2.2,
      wrapInt64_of_fits _ f3.1 f3.2]
    by_cases hk : Int.tdiv (e - s.last_start_) s.duration_ - 1 > 0
    · simp only [hk, if_true]
      obtain ⟨g1, g2⟩ := f4 hk
      rw [wrapInt64_of_fits _ g1.1 g1.2, wrapInt64_of_fits _ g2.1 g2.2]
    · simp only [hk, if_false]

theorem loopTest_succ (es : List LayerAnimationElement) (cyc : Bool) (c : Nat) (st e : Int)
    (j : Nat) :
    loopTest es cyc c st e (j + 1) ↔ loopTest es cyc (c + 1) (st + durAt es c) e j := by
  unfold loopTest
  have h1 : windowSum es c (j + 1 + 1) = durAt es c + windowSum es (c + 1) (j + 1) := rfl
  rw [h1]
  constructor
  · rintro ⟨a, b⟩
    refine ⟨?_, by linarith⟩
    rcases a with a | a
    · exact Or.inl a
    · right; omega
  · rintro ⟨a, b⟩
    refine ⟨?_, by linarith⟩
    rcases a with a | a
    · exact Or.inl a
    · right; omega

theorem SumsFit_succ (es : List LayerAnimationElement) (cyc : Bool) (c : Nat) (st e : Int)
    (h : SumsFit es cyc c st e) (h0 : loopTest es cyc c st e 0) :
    SumsFit es cyc (c + 1) (st + durAt es c) e := by
  intro i hrun hg
  have h1 := h (i + 1)
    (by
      intro j hj
      cases j with
      | zero => exact h0
      | succ j => exact (loopTest_succ es cyc c st e j).mpr (hrun j (by omega)))
    (by
      rcases hg with hg | hg
      · exact Or.inl hg
      · right; omega)
  have h2 : windowSum es c (i + 1 + 1) = durAt es c + windowSum es (c + 1) (i + 1) := rfl
  rw [h2, ← add_assoc] at h1
  exact h1

/-- When no sum of the stepping loop overflows, it computes in `int64` what it computes on
the integers. -/
theorem stepLoop64_eq : ∀ (fuel : Nat) (s : LayerAnimationSequence) (e : Int)
    (calls : List Call),
    SumsFit s.elements_ s.is_cyclic_ s.last_element_ s.last_start_ e →
    stepLoop64 fuel s e calls = stepLoop fuel s e calls := by
  intro fuel
  induction fuel with
  | zero => intro s e calls _; rfl
  | succ fuel ih =>
    intro s e calls hfit
    rw [stepLoop64, stepLoop]
    by_cases hlen : s.elements_.length = 0
    · simp [modSize, hlen, bind, Except.bind]
    · have hne : s.elements_ ≠ [] := by
        intro h; apply hlen; rw [h]; rfl
      obtain ⟨el, hel, hdur, _⟩ := elementAt_mod s.elements_ hne s.last_element_
      rw [modSize_ok _ _ hlen]
      simp only [bind, Except.bind, hel]
      by_cases hc : (s.is_cyclic_ || decide (s.last_element_ < s.elements_.length)) = true
      · have hcp : s.is_cyclic_ = true ∨ s.last_element_ + 0 < s.elements_.length := by
          simpa using hc
        have hin := hfit 0 (fun j hj => absurd hj (Nat.not_lt_zero j)) hcp
        have hw1 : windowSum s.elements_ s.last_element_ (0 + 1) =
            durAt s.elements_ s.last_element_ := by
          simp [windowSum]
        rw [hw1, ← hdur] at hin
        have hw : wrapInt64 (s.last_start_ + el.duration) = s.last_start_ + el.duration :=
          wrapInt64_of_fits _ hin.1 hin.2
        simp only [hc, if_true, hw]
        by_cases ht : s.last_start_ + el.duration < e
        · simp only [ht, if_true]
          have h0 : loopTest s.elements_ s.is_cyclic_ s.last_element_ s.last_start_ e 0 := by
            refine ⟨hcp, ?_⟩
            rw [hw1, ← hdur]
            exact ht
          have hnext := SumsFit_succ _ _ _ _ _ hfit h0
          rw [← hdur] at hnext
          exact ih { s with last_start_ := s.last_start_ + el.duration
                            last_element_ := s.last_element_ + 1 } e _ hnext
        · simp only [ht, if_false]
      · simp only [hc, Bool.false_eq_true, if_false]

theorem activeUpdate64_run (s : LayerAnimationSequence) (e : Int) (calls : List Call)
    (hne : s.elements_ ≠ []) :
    activeUpdate64 s e calls =
      .ok (calls ++ activeCalls64 s.elements_ s.is_cyclic_ s.last_element_ s.last_start_ e) := by
  obtain ⟨els, dur, props, cyc, c, st⟩ := s
  simp only at hne ⊢
  have hlen : els.length ≠ 0 := by
    intro h; exact hne (List.length_eq_zero.mp h)
  obtain ⟨el, hel, hdur, _⟩ := elementAt_mod els hne c
  unfold activeUpdate64 activeCalls64
  by_cases h1 : (cyc || decide (c < els.length)) = true
  · have h1p : cyc = true ∨ c < els.length := by simpa using h1
    simp only [h1, if_true, h1p, modSize_ok _ _ hlen, bind, Except.bind, hel, pure, Except.pure,
      fractionAt64, hdur]
    by_cases h2 : durAt els c > 0
    · simp only [h2, if_true]
      have hpos := InMillisecondsF64_pos _ h2
      simp only [divDouble64, ne_of_gt hpos, if_false]
    · simp only [h2, if_false]
  · have h1p : ¬ (cyc = true ∨ c < els.length) := by simpa using h1
    simp [h1, h1p, pure, Except.pure]

/-- The result of `Progress64` when no operation on the cursor overflows: the cursor of
`Progress`, and the calls of `Progress` with the last fraction computed in `double`. -/
theorem Progress64_run (s : LayerAnimationSequence) (e : Int) (m fuel : Nat)
    (hne : s.elements_ ≠ []) (hpos : 0 < s.duration_)
    (hfit : NoOverflow64 s e) (hf : m < fuel)
    (hrun : ∀ i, i < m →
      loopTest s.elements_ s.is_cyclic_ s.last_element_ (skipStart s e) e i)
    (hstop : ¬ loopTest s.elements_ s.is_cyclic_ s.last_element_ (skipStart s e) e m) :
    Progress64 fuel s e =
      .ok (resetAtEnd
            { s with last_element_ := s.last_element_ + m
                     last_start_ := skipStart s e + windowSum s.elements_ s.last_element_ m } e,
           passCalls s.elements_ s.last_element_ m ++
             activeCalls64 s.elements_ s.is_cyclic_ (s.last_element_ + m)
               (skipStart s e + windowSum s.elements_ s.last_element_ m) e) := by
  have hlen : s.elements_.length ≠ 0 := by
    intro h; exact hne (List.length_eq_zero.mp h)
  unfold Progress64
  simp only [hlen, ne_of_gt hpos, decide_False, Bool.or_self, Bool.false_eq_true, if_false]
  rw [skipAhead64_eq s e hpos hfit.1, skipAhead_ok s e (ne_of_gt hpos)]
  simp only [bind, Except.bind]
  rw [stepLoop64_eq fuel { s with last_start_ := skipStart s e } e [] hfit.2]
  rw [stepLoop_run s.elements_ hne e m { s with last_start_ := skipStart s e } [] fuel rfl hf
    hrun hstop]
  simp only [List.nil_append]
  rw [activeUpdate64_run
    { s with last_element_ := s.last_element_ + m
             last_start_ := skipStart s e + windowSum s.elements_ s.last_element_ m } e _ hne]
  rfl

/-- A simple sufficient condition: nothing overflows when the cursor start, the cursor
start plus the total duration, the elapsed value plus the total duration and the
difference `elapsed - last_start_` are `int64` values. -/
theorem NoOverflow64_of_fits (s : LayerAnimationSequence) (e : Int) (hne : s.elements_ ≠ [])
    (hnn : NonNegDurations s.elements_) (hagg : s.duration_ = totalDuration s.elements_)
    (hpos : 0 < s.duration_) (hfit : Fits64 s e) : NoOverflow64 s e := by
  obtain ⟨f1, f2, f3, f4, f5⟩ := hfit
  constructor
  · intro hc
    obtain ⟨b1, b2⟩ := tdiv_bounds (e - s.last_start_) s.duration_ hpos
    have hq : -2 ^ 63 < Int.tdiv (e - s.last_start_) s.duration_ ∧
        Int.tdiv (e - s.last_start_) s.duration_ < 2 ^ 63 ∧
        (0 < Int.tdiv (e - s.last_start_) s.duration_ →
          0 ≤ e - s.last_start_ ∧
          Int.tdiv (e - s.last_start_) s.duration_ * s.duration_ ≤ e - s.last_start_) := by
      by_cases ha : 0 ≤ e - s.last_start_
      · obtain ⟨c1, c2⟩ := b1 ha
        have c3 : Int.tdiv (e - s.last_start_) s.duration_ * 1 ≤
            Int.tdiv (e - s.last_start_) s.duration_ * s.duration_ :=
          Int.mul_le_mul_of_nonneg_left (by omega) c1
        refine ⟨by omega, by omega, fun _ => ⟨ha, c2⟩⟩
      · obtain ⟨c1, c2⟩ := b2 (by omega)
        refine ⟨by omega, by omega, fun h => by omega⟩
    refine ⟨⟨le_of_lt f4, f5⟩, ⟨le_of_lt hq.1, hq.2.1⟩, ⟨by omega, by omega⟩, fun hk => ?_⟩
    obtain ⟨d1, d2⟩ := hq.2.2 (by omega)
    have hkd : 0 ≤ (Int.tdiv (e - s.last_start_) s.duration_ - 1) * s.duration_ :=
      Int.mul_nonneg (by omega) (le_of_lt hpos)
    have hkd2 : (Int.tdiv (e - s.last_start_) s.duration_ - 1) * s.duration_ ≤
        e - s.last_start_ := by
      have : (Int.tdiv (e - s.last_start_) s.duration_ - 1) * s.duration_ =
          Int.tdiv (e - s.last_start_) s.duration_ * s.duration_ - s.duration_ := by ring
      omega
    exact ⟨⟨by omega, by omega⟩, ⟨by omega, by omega⟩⟩
  · obtain ⟨k, hk1, _, hk3, _⟩ := skipStart_spec s e hpos
    have hst1 : -2 ^ 63 ≤ skipStart s e ∧ skipStart s e + s.duration_ < 2 ^ 63 := by
      rcases Nat.eq_zero_or_pos k with hk | hk
      · rw [hk1, hk]
        simp only [Nat.cast_zero, zero_mul, add_zero]
        exact ⟨f1, f2⟩
      · have h2 := hk3 hk
        have h3 : 0 ≤ (k : Int) * s.duration_ :=
          Int.mul_nonneg (Int.ofNat_nonneg k) (le_of_lt hpos)
        constructor
        · rw [hk1]; omega
        · omega
    intro i hrun _
    have hw0 := windowSum_nonneg s.elements_ hnn s.last_element_ (i + 1)
    have hd := durAt_le_total s.elements_ hne hnn (s.last_element_ + i)
    rw [← hagg] at hd
    rw [windowSum_succ] at hw0 ⊢
    constructor
    · omega
    · rcases Nat.eq_zero_or_pos i with hi | hi
      · subst hi
        simp only [windowSum, add_zero]
        have := hst1.2
        simp only [Nat.add_zero] at hd
        omega
      · have h1 := (hrun (i - 1) (by omega)).2
        have h2 : i - 1 + 1 = i := by omega
        rw [h2] at h1
        omega

theorem activeCalls64_length_le (es : List LayerAnimationElement) (cyc : Bool) (c : Nat)
    (st e : Int) : (activeCalls64 es cyc c st e).length ≤ 1 := by
  unfold activeCalls64
  split <;> simp

/-- C16, as amended: on a cyclic sequence of `n` elements with positive total duration
`D`, in any cursor state and for any elapsed value for which no `int64` operation that
the call performs on the cursor overflows (`NoOverflow64`), the skip-ahead leaves
`elapsed - last_start_ < 2 D`; the stepping loop then stops after `m ≤ 2 n - 1`
iterations (it returns as soon as `m + 1` evaluations of its test are allowed, having
made `m` calls and advanced `last_element_` by `m`); and the whole `Progress` call makes
at most `2 n` element calls.  Stated on `Progress64`, the procedure in `int64` and
`double` arithmetic. -/
theorem C16_bounded_stepping (s : LayerAnimationSequence) (elapsed : Int)
    (hcyc : s.is_cyclic_ = true) (hagg : s.duration_ = totalDuration s.elements_)
    (hpos : 0 < s.duration_) (hfit : NoOverflow64 s elapsed) :
    ∃ s1 m s2 loopCalls t calls,
      skipAhead64 s elapsed = .ok s1 ∧ elapsed - s1.last_start_ < 2 * s.duration_ ∧
      m ≤ 2 * s.elements_.length - 1 ∧
      (∀ fuel, m < fuel → stepLoop64 fuel s1 elapsed [] = .ok (s2, loopCalls)) ∧
      loopCalls.length = m ∧ s2.last_element_ = s.last_element_ + m ∧
      (∀ fuel, m < fuel → Progress64 fuel s elapsed = .ok (t, calls)) ∧
      calls.length ≤ 2 * s.elements_.length := by
  have hne := positive_total_nonempty s hagg hpos
  have hlen : 0 < s.elements_.length := List.length_pos.mpr hne
  obtain ⟨k, hk1, _, hk3, hk4⟩ := skipStart_spec s elapsed hpos
  obtain ⟨m, hm, hrun, hstop, _⟩ := Progress_total s elapsed hne hagg hpos
  have hb : stepBound s = 2 * s.elements_.length - 1 := by simp [stepBound, hcyc]
  rw [hb] at hm
  have hskip : skipAhead64 s elapsed = .ok { s with last_start_ := skipStart s elapsed } := by
    rw [skipAhead64_eq s elapsed hpos hfit.1, skipAhead_ok s elapsed (ne_of_gt hpos)]
  have hloop : ∀ fuel, m < fuel →
      stepLoop64 fuel { s with last_start_ := skipStart s elapsed } elapsed [] =
        .ok ({ s with last_element_ := s.last_element_ + m
                      last_start_ := skipStart s elapsed +
                        windowSum s.elements_ s.last_element_ m },
             [] ++ (List.range m).map
               (fun i => Call.progress ((s.last_element_ + i) % s.elements_.length) 1)) := by
    intro fuel hf
    rw [stepLoop64_eq fuel { s with last_start_ := skipStart s elapsed } elapsed [] hfit.2]
    exact stepLoop_run s.elements_ hne elapsed m { s with last_start_ := skipStart s elapsed }
      [] fuel rfl hf hrun hstop
  refine ⟨_, m, _, _, _, _, hskip, hk4 hcyc, hm, hloop, ?_, rfl,
    fun fuel hf => Progress64_run s elapsed m fuel hne hpos hfit hf hrun hstop, ?_⟩
  · simp
  · rw [List.length_append, passCalls_length]
    have := activeCalls64_length_le s.elements_ s.is_cyclic_ (s.last_element_ + m)
      (skipStart s elapsed + windowSum s.elements_ s.last_element_ m) elapsed
    omega

theorem twoElementsCyclic_noOverflow : NoOverflow64 twoElementsCyclic lastFullCycle := by
  have d1 : Int.tdiv 9223372036854775800 300 = 30744573456182586 := by decide
  have hsk : skipStart twoElementsCyclic lastFullCycle = 9223372036854775500 := by
    simp [skipStart, twoElementsCyclic, twoElements, LayerAnimationSequence.newWith,
      LayerAnimationSequence.new, AddElement, lastFullCycle, d1]
  constructor
  · intro _
    simp only [twoElementsCyclic, twoElements, LayerAnimationSequence.newWith,
      LayerAnimationSequence.new, AddElement, lastFullCycle, InInt64]
    norm_num [d1]
  · rw [hsk]
    intro i hrun _
    by_cases hi : i ≤ 1
    · interval_cases i <;>
        simp [InInt64, windowSum, durAt, twoElementsCyclic, twoElements,
          LayerAnimationSequence.newWith, LayerAnimationSequence.new, AddElement]
    · exfalso
      have h1 := (hrun 1 (by omega)).2
      simp [windowSum, durAt, twoElementsCyclic, twoElements, LayerAnimationSequence.newWith,
        LayerAnimationSequence.new, AddElement, lastFullCycle] at h1

/-- Witness for C16 as amended: the cyclic sequence of durations 100 and 200 at the elapsed
value `2 ^ 63 - 8`, eight microseconds below the largest `int64`: the skip-ahead moves
`last_start_` to `2 ^ 63 - 308`, the loop passes element 0 and stops on element 1, whose
end is the elapsed value itself, and no sum overflows. -/
theorem C16_bounded_stepping_witness :
    ∃ s1 m s2 loopCalls t calls,
      skipAhead64 twoElementsCyclic lastFullCycle = .ok s1 ∧
      lastFullCycle - s1.last_start_ < 2 * twoElementsCyclic.duration_ ∧
      m ≤ 2 * twoElementsCyclic.elements_.length - 1 ∧
      (∀ fuel, m < fuel → stepLoop64 fuel s1 lastFullCycle [] = .ok (s2, loopCalls)) ∧
      loopCalls.length = m ∧ s2.last_element_ = twoElementsCyclic.last_element_ + m ∧
      (∀ fuel, m < fuel → Progress64 fuel twoElementsCyclic lastFullCycle = .ok (t, calls)) ∧
      calls.length ≤ 2 * twoElementsCyclic.elements_.length :=
  C16_bounded_stepping twoElementsCyclic lastFullCycle rfl twoElementsCyclic_wf.2.1
    twoElementsCyclic_wf.2.2.1 twoElementsCyclic_noOverflow

set_option maxRecDepth 8000 in
/-- Counterexample to C16 as stated: one cyclic element of `2 ^ 62 + 1` microseconds
(`n = 1`, so the claimed bound is one iteration), cursor `(0, 0)`, elapsed value
`2 ^ 63 - 1`.  The skip-ahead does not fire (`k = 0`); the first step is taken; from then
on `last_start_ + duration` wraps around in `int64` and stays below the elapsed value:
four evaluations of the loop test all succeed. -/
theorem C16_counterexample :
    Progress64 4 oneHugeCyclic 9223372036854775807 = .error Fault.outOfFuel := by
  have d1 : Int.tdiv 9223372036854775807 4611686018427387905 = 1 := by decide
  simp [Progress64, oneHugeCyclic, LayerAnimationSequence.newWith, LayerAnimationSequence.new,
    AddElement, skipAhead64, stepLoop64, divInt64Wrap, wrapInt64, modSize, elementAt, d1,
    bind, Except.bind, pure, Except.pure]

/-! ## Terminal calls of a non-cyclic run, in machine arithmetic -/

/-- A `Progress` call with an elapsed value greater than the total duration completes the
pass of a non-cyclic sequence of non-negative durations whose cursor start is the sum of
the durations before the cursor index: the call returns, changes only the cursor, and
leaves `last_element_` equal to the number of elements. -/
theorem Progress_completes (s : LayerAnimationSequence) (elapsed : Int)
    (hcyc : s.is_cyclic_ = false) (hagg : s.duration_ = totalDuration s.elements_)
    (hnn : NonNegDurations s.elements_) (hpos : 0 < s.duration_)
    (hc : s.last_element_ ≤ s.elements_.length)
    (hst : s.last_start_ = startOf s.elements_ s.last_element_)
    (hlate : s.duration_ < elapsed) :
    ∃ t calls, (∀ fuel, 2 * s.elements_.length ≤ fuel →
        Progress fuel s elapsed = .ok (t, calls)) ∧
      SameButCursor s t ∧ t.last_element_ = s.elements_.length := by
  have hne : s.elements_ ≠ [] := by
    intro h
    rw [hagg, h] at hpos
    simp [totalDuration] at hpos
  have hlen : 0 < s.elements_.length := List.length_pos.mpr hne
  obtain ⟨m, hm, _, hstop, hP⟩ := Progress_total s elapsed hne hagg hpos
  rw [skipStart_noncyclic s elapsed hcyc] at hstop hP
  have hsb : stepBound s = s.elements_.length - s.last_element_ := by
    simp [stepBound, hcyc]
  have hst2 : s.last_start_ = windowSum s.elements_ 0 s.last_element_ := by
    rw [hst, windowSum_zero_start _ _ hc]
  have hm2 : s.last_element_ + m = s.elements_.length := by
    by_contra hcon
    have hlt : s.last_element_ + m < s.elements_.length := by omega
    apply hstop
    refine ⟨Or.inr hlt, ?_⟩
    have h1 := windowSum_mono s.elements_ hnn 0 (s.last_element_ + (m + 1))
      s.elements_.length (by omega)
    rw [windowSum_zero_start _ _ (le_refl _), startOf_length, ← hagg, windowSum_add,
      Nat.zero_add, ← hst2] at h1
    omega
  have hid : resetAtEnd
      { s with last_element_ := s.last_element_ + m
               last_start_ := s.last_start_ + windowSum s.elements_ s.last_element_ m }
      elapsed =
      { s with last_element_ := s.last_element_ + m
               last_start_ := s.last_start_ + windowSum s.elements_ s.last_element_ m } := by
    have hneq : elapsed ≠ s.duration_ := by omega
    simp [resetAtEnd, hneq]
  rw [hid] at hP
  exact ⟨_, _, fun fuel hf => hP fuel (by omega), ⟨rfl, rfl, rfl, rfl⟩, hm2⟩

/-- C19, as amended: on a sequence with at least one element whose cursor index equals the
number of elements `n`, the state of a non-cyclic sequence that has completed its pass,
`Abort` calls `Abort` on every element, indices `0` to `n - 1` in increasing order and
once each, since the active index is `n mod n = 0`; it calls `Progress` on no element and
resets the cursor to `(0, 0)`. -/
theorem C19_abort_after_completion (s : LayerAnimationSequence) (hne : s.elements_ ≠ [])
    (hdone : s.last_element_ = s.elements_.length) :
    ∃ calls, Abort s = .ok ({ s with last_element_ := 0, last_start_ := 0 }, calls) ∧
      calls = (List.range' 0 s.elements_.length).map Call.abort ∧
      (∀ i, i < s.elements_.length → calls.count (Call.abort i) = 1) ∧
      (∀ i t, Call.progress i t ∉ calls) := by
  refine ⟨_, ?_, rfl, ?_, ?_⟩
  · rw [Abort_run s hne, hdone, Nat.mod_self, Nat.sub_zero]
  · intro i hi
    have hinj : Function.Injective Call.abort := by
      intro a b h; cases h; rfl
    rw [List.count_map_of_injective _ _ hinj]
    apply List.count_eq_one_of_mem (List.nodup_range' _ _)
    rw [List.mem_range']
    exact ⟨i, hi, by omega⟩
  · intro i t h
    simp at h

/-- Witness for C19 as amended: durations 100 and 200 after `Progress 400`, cursor
`(2, 300)`: `Abort` is called on element 0 and on element 1. -/
theorem C19_abort_after_completion_witness :
    ∃ calls,
      Abort twoElementsCompleted =
        .ok ({ twoElementsCompleted with last_element_ := 0, last_start_ := 0 }, calls) ∧
      calls = (List.range' 0 twoElementsCompleted.elements_.length).map Call.abort ∧
      (∀ i, i < twoElementsCompleted.elements_.length → calls.count (Call.abort i) = 1) ∧
      (∀ i t, Call.progress i t ∉ calls) :=
  C19_abort_after_completion twoElementsCompleted
    (by
      simp [twoElementsCompleted, twoElements, LayerAnimationSequence.newWith,
        LayerAnimationSequence.new, AddElement])
    rfl

end ui
